import Mathlib

/-!
Verification of the AgentChassis scheduling and recovery engine
(`pkg/scheduler`): the delay (one-shot) scheduler, its repository, and the
cron (recurring) scheduler together with the six-field cron expression
parser and next-fire-time computation of `robfig/cron/v3` that the cron
scheduler depends on.

The Go code is shallowly embedded as pure Lean functions:
* the SQL tables become lists of records, and each repository method
  becomes a function from the list to a new list (or an `Except` for the
  methods that report `ErrTaskNotFound` / `ErrTaskNotPending`);
* each scheduler struct becomes a state record (persisted rows, the
  in-memory timer/entry registry as a list of task ids, and a `stopped`
  flag standing for the scheduler's cancelled root context);
* `time.Now()` becomes an explicit parameter; for the delay scheduler an
  instant is an integer timestamp (only order matters there), while the
  cron side needs calendar structure and uses a civil `DateTime` record
  with one-second granularity (the code never uses sub-second times:
  `Next` immediately truncates nanoseconds);
* the injected `AgentExecutor` becomes an `Option (String → Except String
  String)` parameter: `none` models the executor not being configured,
  and the function's result models the outcome of one `Execute` call
  (a timeout surfaces as an `Except.error`, as in the code).

Goroutine interleavings, the registry mutex, and gorm I/O failures are
outside this sequential embedding; each operation is modelled as the
atomic state transformation its body performs.
-/

namespace AgentChassis

/-! ## Delay task data model (`pkg/scheduler`, model file: `TaskStatus`,
`DelayTask`) -/

/-- `TaskStatus` constants from the scheduler package. -/
inductive TaskStatus where
  | pending
  | running
  | completed
  | failed
  | cancelled
  | missed
deriving DecidableEq, Repr

/-- `DelayTask`: one persisted row of the `delay_tasks` table.  `id` is the
gorm primary key; `runAt` and `executedAt` are instants (integer
timestamps).  The `prompt`/`channel` fields follow the model used by
`DelayScheduler.CreateTask`. -/
structure DelayTask where
  id : Nat
  name : String
  runAt : Int
  prompt : String
  channel : String
  status : TaskStatus
  result : String
  error : String
  executedAt : Option Int
deriving DecidableEq, Repr

/-- `DelayTask.IsExpired`: `time.Now().After(t.RunAt)`, with `now`
explicit. -/
def DelayTask.IsExpired (t : DelayTask) (now : Int) : Bool :=
  decide (t.runAt < now)

/-- Typed repository errors (`ErrTaskNotFound`, `ErrTaskNotPending`). -/
inductive RepoError where
  | notFound
  | notPending
deriving DecidableEq, Repr

namespace Delay

/-! ## `DelayTaskRepository` -/

/-- `gorm` row lookup by primary key (`db.First(&task, id)`): the first row
whose id matches. -/
def findRow (rows : List DelayTask) (id : Nat) : Option DelayTask :=
  rows.find? (fun r => decide (r.id = id))

/-- An `UPDATE ... WHERE id = ?` applies a transformation to every row with
the given id (keys are unique in practice; the embedding does not assume
it).  All transformations used preserve the id. -/
def updById (id : Nat) (f : DelayTask → DelayTask) (rows : List DelayTask) :
    List DelayTask :=
  rows.map (fun r => if r.id = id then f r else r)

/-- The column map built by `DelayTaskRepository.UpdateStatusByID`, applied
to one row: `status` always; `result` only when the argument is non-empty;
`error` only when non-empty; `executed_at` only when the new status is
`completed` or `failed`. -/
def applyStatusUpdate (r : DelayTask) (status : TaskStatus)
    (result errMsg : String) (now : Int) : DelayTask :=
  { r with
    status := status
    result := if result ≠ "" then result else r.result
    error := if errMsg ≠ "" then errMsg else r.error
    executedAt :=
      if status = .completed ∨ status = .failed then some now else r.executedAt }

/-- `DelayTaskRepository.UpdateStatusByID`: runs the update and reports
`ErrTaskNotFound` when no row was affected. -/
def updateStatusByID (rows : List DelayTask) (id : Nat) (status : TaskStatus)
    (result errMsg : String) (now : Int) : Except RepoError (List DelayTask) :=
  let affected := rows.countP (fun r => decide (r.id = id))
  if affected = 0 then .error .notFound
  else .ok (updById id (fun r => applyStatusUpdate r status result errMsg now) rows)

/-- The fixed message `MarkAsMissedByID` stores in the `error` column. -/
def missedMsg : String := "task missed due to server restart"

/-- `DelayTaskRepository.MarkAsMissedByID`. -/
def markAsMissedByID (rows : List DelayTask) (id : Nat) (now : Int) :
    Except RepoError (List DelayTask) :=
  updateStatusByID rows id .missed "" missedMsg now

/-- `DelayTaskRepository.CancelByID`: conditional update
`pending → cancelled`; when nothing matched, distinguishes a missing row
(`ErrTaskNotFound`) from a non-pending one (`ErrTaskNotPending`). -/
def cancelByID (rows : List DelayTask) (id : Nat) :
    Except RepoError (List DelayTask) :=
  let affected := rows.countP (fun r => decide (r.id = id ∧ r.status = .pending))
  if affected = 0 then
    if rows.countP (fun r => decide (r.id = id)) = 0 then .error .notFound
    else .error .notPending
  else
    .ok (rows.map (fun r =>
      if r.id = id ∧ r.status = .pending then { r with status := .cancelled } else r))

/-- `DelayTaskRepository.DeleteByID`. -/
def deleteByID (rows : List DelayTask) (id : Nat) :
    Except RepoError (List DelayTask) :=
  let remaining := rows.filter (fun r => decide (r.id ≠ id))
  if remaining.length = rows.length then .error .notFound
  else .ok remaining

/-- `DelayTaskRepository.ListPending` (the `ORDER BY run_at ASC` clause only
permutes the result; the embedding keeps row order, which does not affect
any per-id observation proved below). -/
def listPending (rows : List DelayTask) : List DelayTask :=
  rows.filter (fun r => decide (r.status = .pending))

/-! ## `DelayScheduler` -/

/-- The scheduler's mutable state: the `delay_tasks` table, the gorm
auto-increment counter, the id → `*time.Timer` registry (as the list of
registered ids), and whether the root context has been cancelled. -/
structure State where
  rows : List DelayTask
  nextId : Nat
  timers : List Nat
  stopped : Bool
deriving DecidableEq, Repr

/-- `DelayScheduler.scheduleTask`: computes the (floored) delay, stops any
existing timer for the id, and installs a fresh one.  It has no error
path — the Go function ends in `return nil`.  The returned `Except`
mirrors its `error` result type. -/
def scheduleTask (st : State) (task : DelayTask) (now : Int) :
    Except String Unit × State :=
  let delay := task.runAt - now
  let delay := if delay < 0 then 0 else delay
  let _ := delay
  let timers := task.id :: st.timers.filter (fun i => decide (i ≠ task.id))
  (.ok (), { st with timers := timers })

/-- `DelayScheduler.recoverTasks` loop body: expired tasks are marked
missed (errors logged and swallowed), the rest are rescheduled. -/
def recoverStep (now : Int) (st : State) (task : DelayTask) : State :=
  if task.IsExpired now then
    match markAsMissedByID st.rows task.id now with
    | .ok rows' => { st with rows := rows' }
    | .error _ => st
  else
    (scheduleTask st task now).2

/-- `DelayScheduler.recoverTasks`: lists the pending rows and processes
each. -/
def recoverTasks (st : State) (now : Int) : State :=
  (listPending st.rows).foldl (recoverStep now) st

/-- `DelayScheduler.CreateTask`.  Validation (`run_at` not before now,
non-empty prompt) happens before anything is persisted; then the row is
created and scheduled, and a scheduling failure rolls the row back. -/
def createTask (st : State) (now : Int) (name : String) (runAt : Int)
    (prompt : String) (channel : Option String) :
    Except String DelayTask × State :=
  if runAt < now then (.error ("run_at must be in the future"), st)
  else if prompt = "" then (.error ("prompt cannot be empty"), st)
  else
    let ch := match channel with
      | some c => if c ≠ "" then c else ""
      | none => ""
    let task : DelayTask :=
      { id := st.nextId, name := name, runAt := runAt, prompt := prompt
        channel := ch, status := .pending, result := "", error := ""
        executedAt := none }
    let st1 := { st with rows := st.rows ++ [task], nextId := st.nextId + 1 }
    match scheduleTask st1 task now with
    | (.error e, st2) =>
      let rows' := match deleteByID st2.rows task.id with
        | .ok r => r
        | .error _ => st2.rows
      (.error ("failed to schedule task: " ++ e), { st2 with rows := rows' })
    | (.ok _, st2) => (.ok task, st2)

/-- `DelayScheduler.executeTask`: the timer callback.  Early returns: the
scheduler has stopped, the row is gone, the row is no longer pending, the
`running` update failed, or no executor is configured (the last records a
`failed` status first).  Otherwise the executor runs and the row is
finalized; only this full path removes the timer handle from the
registry. -/
def executeTask (st : State) (taskID : Nat) (now : Int)
    (executor : Option (String → Except String String)) : State :=
  if st.stopped then st
  else
    match findRow st.rows taskID with
    | none => st
    | some task =>
      if task.status ≠ .pending then st
      else
        match updateStatusByID st.rows taskID .running "" "" now with
        | .error _ => st
        | .ok rows1 =>
          let st1 := { st with rows := rows1 }
          match executor with
          | none =>
            let st2 := match updateStatusByID st1.rows taskID .failed ""
                ("agent executor not set") now with
              | .ok rows2 => { st1 with rows := rows2 }
              | .error _ => st1
            st2
          | some exec =>
            let st2 := match exec task.prompt with
              | .error e =>
                match updateStatusByID st1.rows taskID .failed "" e now with
                | .ok rows2 => { st1 with rows := rows2 }
                | .error _ => st1
              | .ok res =>
                match updateStatusByID st1.rows taskID .completed res "" now with
                | .ok rows2 => { st1 with rows := rows2 }
                | .error _ => st1
            { st2 with timers := st2.timers.filter (fun i => decide (i ≠ taskID)) }

/-- `DelayScheduler.CancelTaskByID`: stops and removes the timer handle
(if any) first, then performs the conditional persisted update. -/
def cancelTaskByID (st : State) (id : Nat) : Except RepoError Unit × State :=
  let st0 := { st with timers := st.timers.filter (fun i => decide (i ≠ id)) }
  match cancelByID st0.rows id with
  | .ok rows' => (.ok (), { st0 with rows := rows' })
  | .error e => (.error e, st0)

/-- Ids of the persisted delay rows. -/
def rowIds (rows : List DelayTask) : List Nat := rows.map (fun r => r.id)

/-- The transformation `MarkAsMissedByID` applies to the affected row. -/
def markMissed (r : DelayTask) (now : Int) : DelayTask :=
  applyStatusUpdate r .missed "" missedMsg now

/-- The result/error population discipline of the delay state machine:
a non-empty `result` only on a `completed` row; a non-empty `error` only
on a `failed` or `missed` row. -/
def resultErrorOK (r : DelayTask) : Prop :=
  (r.result ≠ "" → r.status = .completed)
    ∧ (r.error ≠ "" → r.status = .failed ∨ r.status = .missed)

instance (r : DelayTask) : Decidable (resultErrorOK r) := by
  unfold resultErrorOK
  infer_instance

end Delay

/-! ## Civil time for the cron side

`robfig/cron`'s `Next` walks the civil (Gregorian) calendar, so the cron
embedding uses a civil datetime with one-second granularity.  Time zones
are not modelled: the scheduler always runs in one fixed location and no
claim involves zone changes, so all arithmetic is plain proleptic-Gregorian
(this also drops `Next`'s DST patch-up step, which is a no-op in a
fixed-offset zone). -/

/-- A civil datetime.  `time.Time{}` (the zero time) is year 1, January 1,
00:00:00. -/
structure DateTime where
  year : Nat
  month : Nat
  day : Nat
  hour : Nat
  minute : Nat
  second : Nat
deriving DecidableEq, Repr

/-- The Go zero time `time.Time{}`. -/
def zeroTime : DateTime := ⟨1, 1, 1, 0, 0, 0⟩

/-- Leap years of the Gregorian calendar, as Go's `isLeap`. -/
def isLeapYear (y : Nat) : Bool :=
  decide ((y % 4 = 0 ∧ y % 100 ≠ 0) ∨ y % 400 = 0)

/-- Days in a month, as Go's `daysIn`. -/
def daysInMonth (y m : Nat) : Nat :=
  if m = 2 then (if isLeapYear y then 29 else 28)
  else if m = 4 ∨ m = 6 ∨ m = 9 ∨ m = 11 then 30
  else 31

/-- A strictly monotone linearization of civil datetimes (strictly
monotone with respect to the instant order on well-formed datetimes, since
each field fits its slot: month < 13, day < 32, hour < 24,
minute/second < 60). -/
def dtKey (t : DateTime) : Nat :=
  ((((t.year * 13 + t.month) * 32 + t.day) * 24 + t.hour) * 60 + t.minute) * 60
    + t.second

/-- Coarser projections of `dtKey`, used to reason about the calendar
walk: `dtKey t = ((monthKey t * 32 + day) * 24 + hour) * 60 ...`. -/
def monthKey (t : DateTime) : Nat := t.year * 13 + t.month

def dayKey (t : DateTime) : Nat := monthKey t * 32 + t.day

def hourKey (t : DateTime) : Nat := dayKey t * 24 + t.hour

def minuteKey (t : DateTime) : Nat := hourKey t * 60 + t.minute

/-- Well-formedness of a civil datetime (what `time.Time` guarantees for
its broken-down fields). -/
def DTWF (t : DateTime) : Prop :=
  1 ≤ t.month ∧ t.month ≤ 12 ∧ 1 ≤ t.day ∧ t.day ≤ daysInMonth t.year t.month
    ∧ t.hour ≤ 23 ∧ t.minute ≤ 59 ∧ t.second ≤ 59

instance (t : DateTime) : Decidable (DTWF t) := by
  unfold DTWF; infer_instance

/-- Go `time.Date` day-overflow normalization, for the day counts that can
arise from `AddDate(0, 1, 0)` on a real date (day ≤ 31, so at most one
month is borrowed; the final clamp is unreachable and only makes the
function total). -/
def normDay (y m d h mi s : Nat) : DateTime :=
  if d ≤ daysInMonth y m then ⟨y, m, d, h, mi, s⟩
  else
    let d2 := d - daysInMonth y m
    let y2 := if m + 1 ≤ 12 then y else y + 1
    let m2 := if m + 1 ≤ 12 then m + 1 else 1
    if d2 ≤ daysInMonth y2 m2 then ⟨y2, m2, d2, h, mi, s⟩
    else ⟨y2, m2, daysInMonth y2 m2, h, mi, s⟩

/-- Go `t.AddDate(0, 1, 0)`: bump the month, normalizing day overflow the
way `time.Date` does. -/
def addMonthGo (t : DateTime) : DateTime :=
  let y := if t.month + 1 ≤ 12 then t.year else t.year + 1
  let m := if t.month + 1 ≤ 12 then t.month + 1 else 1
  normDay y m t.day t.hour t.minute t.second

/-- Go `t.AddDate(0, 0, 1)` on a well-formed date. -/
def addDay (t : DateTime) : DateTime :=
  if t.day + 1 ≤ daysInMonth t.year t.month then { t with day := t.day + 1 }
  else if t.month + 1 ≤ 12 then { t with month := t.month + 1, day := 1 }
  else { t with year := t.year + 1, month := 1, day := 1 }

/-- Go `t.Add(time.Hour)` on a well-formed datetime: next hour, rolling
into the next day at 23h. -/
def addHour (t : DateTime) : DateTime :=
  if t.hour + 1 ≤ 23 then { t with hour := t.hour + 1 }
  else
    ⟨(addDay t).year, (addDay t).month, (addDay t).day, 0,
      (addDay t).minute, (addDay t).second⟩

/-- Go `t.Add(time.Minute)` on a well-formed datetime. -/
def addMinute (t : DateTime) : DateTime :=
  if t.minute + 1 ≤ 59 then { t with minute := t.minute + 1 }
  else
    ⟨(addHour t).year, (addHour t).month, (addHour t).day, (addHour t).hour,
      0, (addHour t).second⟩

/-- Go `t.Add(time.Second)` on a well-formed datetime. -/
def addSecond (t : DateTime) : DateTime :=
  if t.second + 1 ≤ 59 then { t with second := t.second + 1 }
  else
    ⟨(addMinute t).year, (addMinute t).month, (addMinute t).day,
      (addMinute t).hour, (addMinute t).minute, 0⟩

/-- `time.Date(t.Year(), t.Month(), 1, 0, 0, 0, 0, loc)`. -/
def startOfMonth (t : DateTime) : DateTime :=
  ⟨t.year, t.month, 1, 0, 0, 0⟩

/-- `time.Date(t.Year(), t.Month(), t.Day(), 0, 0, 0, 0, loc)`. -/
def startOfDay (t : DateTime) : DateTime :=
  ⟨t.year, t.month, t.day, 0, 0, 0⟩

/-- `time.Date(t.Year(), t.Month(), t.Day(), t.Hour(), 0, 0, 0, loc)`. -/
def truncHour (t : DateTime) : DateTime :=
  ⟨t.year, t.month, t.day, t.hour, 0, 0⟩

/-- `t.Truncate(time.Minute)` (the model has no sub-second part). -/
def truncMinute (t : DateTime) : DateTime :=
  { t with second := 0 }

/-- Day of week of a civil date (Sunday = 0), matching `time.Weekday` on
the proleptic Gregorian calendar (Sakamoto's method). -/
def dayOfWeek (y m d : Nat) : Nat :=
  let tbl : List Nat := [0, 3, 2, 5, 0, 3, 5, 1, 4, 6, 2, 4]
  let y := if m < 3 then y - 1 else y
  (((y + y / 4) - y / 100) + y / 400 + tbl.getD (m - 1) 0 + d) % 7

/-- Epoch-style linearization in seconds, used only to express the Go
`finishedAt.Sub(startedAt).Milliseconds()` subtraction of instants.  Days
are counted via the civil `days-from-epoch` style accumulation; since both
operands in every use are well-formed datetimes, any strictly monotone
linearization agreeing on differences of instants works, and this one
counts real calendar days. -/
def daysBeforeYear (y : Nat) : Nat :=
  -- days in years 1..y-1 of the proleptic Gregorian calendar
  let p := y - 1
  p * 365 + p / 4 - p / 100 + p / 400

def daysBeforeMonth (y m : Nat) : Nat :=
  (List.range m).foldl (fun acc i => if 1 ≤ i then acc + daysInMonth y i else acc) 0

def dtToSecs (t : DateTime) : Int :=
  let days := daysBeforeYear t.year + daysBeforeMonth t.year t.month + (t.day - 1)
  ((days : Int) * 24 + (t.hour : Int)) * 3600 + (t.minute : Int) * 60
    + (t.second : Int)

/-! ## The `robfig/cron/v3` six-field expression parser

`CronScheduler.CreateTask` validates expressions with
`cron.NewParser(cron.Second | cron.Minute | cron.Hour | cron.Dom |
cron.Month | cron.Dow)`: exactly six whitespace-separated fields, no
descriptors, no optional fields.  A parsed schedule is a `SpecSchedule` of
per-field bitmasks with bit 63 (`starBit`) recording that a field was
`*`/`?` without a step. -/

/-- `SpecSchedule`. -/
structure CronSched where
  second : Nat
  minute : Nat
  hour : Nat
  dom : Nat
  month : Nat
  dow : Nat
deriving DecidableEq, Repr

def starBit : Nat := 1 <<< 63

/-- Per-field bounds plus the month/weekday name tables. -/
structure FieldBounds where
  lo : Nat
  hi : Nat
  names : List (String × Nat)

def secondBounds : FieldBounds := ⟨0, 59, []⟩
def minuteBounds : FieldBounds := ⟨0, 59, []⟩
def hourBounds : FieldBounds := ⟨0, 23, []⟩
def domBounds : FieldBounds := ⟨1, 31, []⟩
def monthBounds : FieldBounds :=
  ⟨1, 12, [("jan", 1), ("feb", 2), ("mar", 3), ("apr", 4), ("may", 5),
    ("jun", 6), ("jul", 7), ("aug", 8), ("sep", 9), ("oct", 10),
    ("nov", 11), ("dec", 12)]⟩
def dowBounds : FieldBounds :=
  ⟨0, 6, [("sun", 0), ("mon", 1), ("tue", 2), ("wed", 3), ("thu", 4),
    ("fri", 5), ("sat", 6)]⟩

/-!
String plumbing.  The Lean core `String` functions used by a direct
transcription (`splitOn`, `split`, `startsWith`, `toLower`) are defined by
well-founded recursion and do not reduce inside the kernel, so the Go
string operations are modelled by structurally recursive functions over
`String.data`. -/

/-- `strings.Split` for a one-character separator (the only separators the
parser uses are `/`, `-`, `,`); empty pieces are kept, as in Go. -/
def splitOnChar (sep : Char) : List Char → List (List Char)
  | [] => [[]]
  | c :: cs =>
    let rest := splitOnChar sep cs
    if c = sep then [] :: rest
    else
      match rest with
      | r :: rs => (c :: r) :: rs
      | [] => [[c]]

/-- Go `unicode.IsSpace` restricted to ASCII (cron expressions are ASCII;
non-ASCII Unicode spaces are not modelled). -/
def isSpaceChar (c : Char) : Bool :=
  decide (c = ' ' ∨ c = '\t' ∨ c = '\n' ∨ c = '\r' ∨ c.toNat = 11 ∨ c.toNat = 12)

/-- `strings.Fields`: whitespace-separated words, empties dropped. -/
def charFields (cs : List Char) : List (List Char) :=
  (splitOnChar ' ' (cs.map (fun c => if isSpaceChar c then ' ' else c))).filter
    (fun w => decide (w ≠ []))

/-- `strings.HasPrefix` over character lists. -/
def hasPfx (p cs : List Char) : Bool :=
  List.isPrefixOf p cs

/-- ASCII `strings.ToLower` on a single character code. -/
def lowerCode (n : Nat) : Nat :=
  if 65 ≤ n ∧ n ≤ 90 then n + 32 else n

/-- Case-insensitive comparison of a field token against one of the
lower-case month/weekday names (`names[strings.ToLower(expr)]`). -/
def eqIgnoreCase (a b : List Char) : Bool :=
  decide (a.map (fun c => lowerCode c.toNat) = b.map (fun c => lowerCode c.toNat))

/-- `strconv.Atoi` (overflow is not modelled; the repository never feeds
the parser numbers anywhere near 2^63). -/
def atoi (s : List Char) : Option Int :=
  match s with
  | [] => none
  | c :: cs =>
    let signNeg := c = '-'
    let digits := if c = '-' ∨ c = '+' then cs else c :: cs
    if digits.isEmpty then none
    else if digits.all Char.isDigit then
      let n : Nat := digits.foldl (fun acc d => acc * 10 + (d.toNat - 48)) 0
      some (if signNeg then -(n : Int) else (n : Int))
    else none

/-- `mustParseInt`: a non-negative integer. -/
def mustParseInt (s : List Char) : Except String Nat :=
  match atoi s with
  | none => .error ("failed to parse int from " ++ String.mk s)
  | some n =>
    if n < 0 then .error ("negative number (" ++ String.mk s ++ ") not allowed")
    else .ok n.toNat

/-- `parseIntOrName`: a name from the field's table (case-insensitive) or
a plain integer. -/
def parseIntOrName (s : List Char) (names : List (String × Nat)) :
    Except String Nat :=
  match names.find? (fun p => eqIgnoreCase s p.1.data) with
  | some p => .ok p.2
  | none => mustParseInt s

/-- `getBits(min, max, step)`: the set `{min, min+step, ..} ∩ [min, max]`
as a bitmask (the code special-cases `step = 1` with a mask expression that
denotes the same set). -/
def getBits (lo hi step : Nat) : Nat :=
  ((List.range (hi + 1)).filter
      (fun i => decide (lo ≤ i ∧ (i - lo) % step = 0))).foldl
    (fun acc i => acc ||| (1 <<< i)) 0

/-- `getRange`: one comma-separated term, `lo`, `lo-hi`, either with an
optional `/step`, or `*`/`?`. -/
def getRange (expr : List Char) (b : FieldBounds) : Except String Nat := do
  let rangeAndStep := splitOnChar '/' expr
  let lowAndHigh := splitOnChar '-' (rangeAndStep.headD [])
  let singleDigit := lowAndHigh.length = 1
  let (start, done, extra) ←
    match lowAndHigh with
    | [x] =>
      if x = ['*'] ∨ x = ['?'] then pure (b.lo, b.hi, starBit)
      else do
        let s ← parseIntOrName x b.names
        pure (s, s, 0)
    | [x, y] => do
      let s ← parseIntOrName x b.names
      let e ← parseIntOrName y b.names
      pure (s, e, 0)
    | _ => .error ("too many hyphens: " ++ String.mk expr)
  let (finish, step, extra) ←
    match rangeAndStep with
    | [_] => pure (done, 1, extra)
    | [_, stepStr] => do
      let st ← mustParseInt stepStr
      -- "N/step" means "N-max/step"
      let fin := if singleDigit then b.hi else done
      pure (fin, st, if st > 1 then 0 else extra)
    | _ => .error ("too many slashes: " ++ String.mk expr)
  if start < b.lo then
    .error ("beginning of range below minimum")
  else if finish > b.hi then
    .error ("end of range above maximum")
  else if start > finish then
    .error ("beginning of range beyond end of range")
  else if step = 0 then
    .error ("step of range should be a positive number")
  else
    pure (getBits start finish step ||| extra)

/-- `getField`: OR of the comma-separated ranges. -/
def getField (field : List Char) (b : FieldBounds) : Except String Nat :=
  (splitOnChar ',' field).foldlM
    (fun acc r => do
      let bits ← getRange r b
      pure (acc ||| bits))
    0

/-- `Parser.Parse` for the options used by `CronScheduler.CreateTask`
(six required fields, no descriptors).  A leading `TZ=`/`CRON_TZ=` token
selects a location; location loading itself is not modelled, so the token
is stripped (`spec = strings.TrimSpace(spec[i:])`, which for the later
prefix test and field split is dropping through the first space and any
following whitespace; a `TZ=` spec with no space at all makes the Go code
fail, modelled as an error). -/
def parseCron (spec : String) : Except String CronSched := do
  if spec.length = 0 then
    .error ("empty spec string")
  else
    let rest ←
      if hasPfx ("TZ=").data spec.data ∨ hasPfx ("CRON_TZ=").data spec.data then
        if (spec.data.dropWhile (fun c => !isSpaceChar c)) = [] then
          .error ("provided bad location")
        else
          pure ((spec.data.dropWhile (fun c => !isSpaceChar c)).dropWhile isSpaceChar)
      else pure spec.data
    match rest with
    | '@' :: _ => .error ("parser does not accept descriptors: " ++ String.mk rest)
    | _ =>
      match charFields rest with
      | [f0, f1, f2, f3, f4, f5] => do
        let second ← getField f0 secondBounds
        let minute ← getField f1 minuteBounds
        let hour ← getField f2 hourBounds
        let dom ← getField f3 domBounds
        let month ← getField f4 monthBounds
        let dow ← getField f5 dowBounds
        pure ⟨second, minute, hour, dom, month, dow⟩
      | fs =>
        .error ("expected exactly 6 fields, found " ++ toString fs.length)

/-! ## `SpecSchedule.Next` -/

/-- `dayMatches`: day-of-month and day-of-week restrictions combine with
AND when either field was a `*`, and with OR otherwise. -/
def dayMatches (s : CronSched) (t : DateTime) : Bool :=
  let domMatch := Nat.testBit s.dom t.day
  let dowMatch := Nat.testBit s.dow (dayOfWeek t.year t.month t.day)
  if Nat.testBit s.dom 63 || Nat.testBit s.dow 63 then domMatch && dowMatch
  else domMatch || dowMatch

/-- Outcome of one of `Next`'s field loops: fall through to the next finer
field, or `goto WRAP`. -/
inductive LoopRes where
  | through (t : DateTime) (added : Bool)
  | wrapAgain (t : DateTime) (added : Bool)

def LoopRes.t : LoopRes → DateTime
  | .through t _ => t
  | .wrapAgain t _ => t

/-- The common shape of `Next`'s five field loops: while the field does not
match, truncate the finer fields on the first mutation (`added`), step the
field, and `goto WRAP` on rollover.  Each loop's fuel exceeds its maximal
iteration count (the step function reaches the rollover point first), so
the fuel-zero fallback is never taken. -/
def fieldLoop (check : DateTime → Bool) (reset : DateTime → DateTime)
    (step : DateTime → DateTime) (roll : DateTime → Bool) :
    Nat → DateTime → Bool → LoopRes
  | 0, t, added => .wrapAgain t added
  | fuel + 1, t, added =>
    if check t then .through t added
    else
      let (t1, a1) := if !added then (reset t, true) else (t, added)
      let t2 := step t1
      if roll t2 then .wrapAgain t2 a1
      else fieldLoop check reset step roll fuel t2 a1

/-- The month loop of `Next` (13 > the at most 12 steps to reach
January). -/
def monthLoop (s : CronSched) : Nat → DateTime → Bool → LoopRes :=
  fieldLoop (fun u => Nat.testBit s.month u.month) startOfMonth addMonthGo
    (fun u => u.month = 1)

/-- The day loop of `Next` (32 > the at most 31 steps to reach the 1st;
the DST correction is a no-op in a fixed-offset location). -/
def dayLoop (s : CronSched) : Nat → DateTime → Bool → LoopRes :=
  fieldLoop (fun u => dayMatches s u) startOfDay addDay (fun u => u.day = 1)

/-- The hour loop of `Next`. -/
def hourLoop (s : CronSched) : Nat → DateTime → Bool → LoopRes :=
  fieldLoop (fun u => Nat.testBit s.hour u.hour) truncHour addHour
    (fun u => u.hour = 0)

/-- The minute loop of `Next`. -/
def minuteLoop (s : CronSched) : Nat → DateTime → Bool → LoopRes :=
  fieldLoop (fun u => Nat.testBit s.minute u.minute) truncMinute addMinute
    (fun u => u.minute = 0)

/-- The second loop of `Next` (`t.Truncate(time.Second)` is the identity at
one-second granularity). -/
def secondLoop (s : CronSched) : Nat → DateTime → Bool → LoopRes :=
  fieldLoop (fun u => Nat.testBit s.second u.second) (fun u => u) addSecond
    (fun u => u.second = 0)

/-- The `WRAP` label of `Next`: re-check the year limit and re-run the
field loops from coarse to fine.  `none` is the zero-time return (the
five-year search limit was exceeded); the fuel bounds the number of `goto
WRAP`s and is never exhausted before the year check triggers. -/
def wrap (s : CronSched) : Nat → Nat → DateTime → Bool → Option DateTime
  | 0, _, _, _ => none
  | fuel + 1, yearLimit, t, added =>
    if t.year > yearLimit then none
    else
      match monthLoop s 13 t added with
      | .wrapAgain t' a' => wrap s fuel yearLimit t' a'
      | .through t1 a1 =>
        match dayLoop s 32 t1 a1 with
        | .wrapAgain t' a' => wrap s fuel yearLimit t' a'
        | .through t2 a2 =>
          match hourLoop s 25 t2 a2 with
          | .wrapAgain t' a' => wrap s fuel yearLimit t' a'
          | .through t3 a3 =>
            match minuteLoop s 61 t3 a3 with
            | .wrapAgain t' a' => wrap s fuel yearLimit t' a'
            | .through t4 a4 =>
              match secondLoop s 61 t4 a4 with
              | .wrapAgain t' a' => wrap s fuel yearLimit t' a'
              | .through t5 _ => some t5

/-- `SpecSchedule.Next(t)`: start one second after `t` (the code adds one
second and truncates nanoseconds, which at whole-second granularity is
`addSecond`), search up to `t.Year() + 5`, and return `none` for the
zero-time result. -/
def schedNext (s : CronSched) (t : DateTime) : Option DateTime :=
  let t1 := addSecond t
  wrap s 100000 (t1.year + 5) t1 false

/-! ## Cron task data model -/

/-- `CronTask`: one row of `cron_tasks`. -/
structure CronTask where
  id : Nat
  name : String
  cronExpr : String
  prompt : String
  channel : String
  description : String
  nextRunAt : Option DateTime
deriving DecidableEq, Repr

/-- `CronExecutionStatus`. -/
inductive CronExecStatus where
  | running
  | completed
  | failed
deriving DecidableEq, Repr

/-- `CronExecution`: one row of `cron_executions`; `duration` is in
milliseconds. -/
structure CronExecution where
  id : Nat
  cronTaskID : Nat
  scheduledAt : DateTime
  startedAt : DateTime
  finishedAt : Option DateTime
  status : CronExecStatus
  result : String
  error : String
  duration : Int
deriving DecidableEq, Repr

namespace Cron

/-! ## `CronScheduler` -/

/-- The cron scheduler's state: the `cron_tasks` and `cron_executions`
tables with their auto-increment counters, the id → `cron.EntryID`
registry (as the list of registered task ids), and the cancelled-context
flag. -/
structure State where
  tasks : List CronTask
  execs : List CronExecution
  nextTaskId : Nat
  nextExecId : Nat
  entries : List Nat
  stopped : Bool
deriving DecidableEq, Repr

/-- `CronTaskRepository.GetByID`. -/
def findTask (tasks : List CronTask) (id : Nat) : Option CronTask :=
  tasks.find? (fun t => decide (t.id = id))

/-- `CronTaskRepository.DeleteByID` (used for the creation rollback). -/
def deleteTaskByID (tasks : List CronTask) (id : Nat) :
    Except String (List CronTask) :=
  let remaining := tasks.filter (fun t => decide (t.id ≠ id))
  if remaining.length = tasks.length then .error ("cron task not found")
  else .ok remaining

/-- `CronTaskRepository.UpdateNextRunAt`. -/
def updateNextRunAt (tasks : List CronTask) (id : Nat) (next : DateTime) :
    List CronTask :=
  tasks.map (fun t => if t.id = id then { t with nextRunAt := some next } else t)

/-- The engine-side parse performed by `cron.AddFunc`.  The engine was
built with `cron.WithSeconds()`, whose parser accepts the same six-field
grammar plus `@`-descriptors.  The named descriptors map to fixed
schedules; `@every` durations are accepted exactly when Go's
`time.ParseDuration` accepts them — that sub-grammar is not reached from
any operation modelled here (every registered expression already passed
the descriptor-free validation parser), so it is conservatively mapped to
an error. -/
def engineAddOk (spec : String) : Except String Unit :=
  if hasPfx ("@").data spec.data then
    if spec = "@yearly" ∨ spec = "@annually" ∨ spec = "@monthly"
        ∨ spec = "@weekly" ∨ spec = "@daily" ∨ spec = "@midnight"
        ∨ spec = "@hourly" then
      .ok ()
    else
      .error ("unrecognized descriptor: " ++ spec)
  else
    match parseCron spec with
    | .ok _ => .ok ()
    | .error e => .error e

/-- `s.cron.Entry(entryID).Next` as observed immediately after `AddFunc`
inside `scheduleTask`: until the engine's run loop has processed the new
entry (in particular whenever the engine has not been started), the
snapshot's `Next` is the zero time, so the conditional
`UpdateNextRunAt` is skipped.  The run loop's own later recomputation is
engine-internal concurrency outside this sequential embedding. -/
def engineEntryNext : DateTime := zeroTime

/-- `CronScheduler.scheduleTask`: remove any existing entry for the id,
`AddFunc` the expression, record the new entry, and push the engine's idea
of the next fire time into `next_run_at` when it is non-zero. -/
def scheduleTask (st : State) (task : CronTask) : Except String Unit × State :=
  let st0 := { st with entries := st.entries.filter (fun i => decide (i ≠ task.id)) }
  match engineAddOk task.cronExpr with
  | .error e => (.error ("failed to add cron entry: " ++ e), st0)
  | .ok _ =>
    let st1 := { st0 with entries := task.id :: st0.entries }
    let next := engineEntryNext
    let st2 :=
      if next ≠ zeroTime then { st1 with tasks := updateNextRunAt st1.tasks task.id next }
      else st1
    (.ok (), st2)

/-- `CronScheduler.CreateTask`: validate the expression with the six-field
parser, reject an empty prompt, compute the first `next_run_at` from now
(`schedule.Next` returns the zero time when nothing matches within the
search limit), persist, then register; registration failure rolls the row
back. -/
def createTask (st : State) (now : DateTime) (name cronExpr prompt description : String)
    (channel : Option String) : Except String CronTask × State :=
  match parseCron cronExpr with
  | .error e => (.error ("invalid cron expression: " ++ e), st)
  | .ok sched =>
    if prompt = "" then (.error ("prompt cannot be empty"), st)
    else
      let nextRun := (schedNext sched now).getD zeroTime
      let ch := match channel with
        | some c => if c ≠ "" then c else ""
        | none => ""
      let task : CronTask :=
        { id := st.nextTaskId, name := name, cronExpr := cronExpr
          prompt := prompt, channel := ch, description := description
          nextRunAt := some nextRun }
      let st1 := { st with tasks := st.tasks ++ [task], nextTaskId := st.nextTaskId + 1 }
      match scheduleTask st1 task with
      | (.error e, st2) =>
        let tasks' := match deleteTaskByID st2.tasks task.id with
          | .ok r => r
          | .error _ => st2.tasks
        (.error ("failed to schedule cron task: " ++ e), { st2 with tasks := tasks' })
      | (.ok _, st2) => (.ok task, st2)

/-- `CronScheduler.finishExecution`: skipped when the execution row was
never persisted (`exec.ID == 0`); otherwise writes `finished_at`, the
final status, result/error, and `duration` in milliseconds of
`finishedAt.Sub(startedAt)`. -/
def finishExecution (st : State) (execId : Nat) (finishedAt : DateTime)
    (status : CronExecStatus) (result errMsg : String) : State :=
  if execId = 0 then st
  else
    { st with execs := st.execs.map (fun e =>
        if e.id = execId then
          { e with
            finishedAt := some finishedAt
            status := status
            result := result
            error := errMsg
            duration := (dtToSecs finishedAt - dtToSecs e.startedAt) * 1000 }
        else e) }

/-- `CronScheduler.executeTask`: every fire creates a fresh
`cron_executions` row in status `running` and finalizes it after the
executor call; with no executor configured the row is finalized as
`failed` immediately; afterwards (executor path only) the entry's next
fire time is pushed into `next_run_at` when the engine reports a non-zero
one.  `scheduledAt`/`startedAt`/`finishedAt` are the three `time.Now()`
reads. -/
def executeTask (st : State) (taskID : Nat)
    (scheduledAt startedAt finishedAt : DateTime)
    (executor : Option (String → Except String String)) : State :=
  if st.stopped then st
  else
    match findTask st.tasks taskID with
    | none => st
    | some task =>
      let exec : CronExecution :=
        { id := st.nextExecId, cronTaskID := taskID, scheduledAt := scheduledAt
          startedAt := startedAt, finishedAt := none, status := .running
          result := "", error := "", duration := 0 }
      let st1 := { st with execs := st.execs ++ [exec], nextExecId := st.nextExecId + 1 }
      match executor with
      | none => finishExecution st1 exec.id finishedAt .failed "" ("agent executor not set")
      | some ex =>
        let st2 := match ex task.prompt with
          | .error e => finishExecution st1 exec.id finishedAt .failed "" e
          | .ok res => finishExecution st1 exec.id finishedAt .completed res ""
        let next := engineEntryNext
        if taskID ∈ st2.entries ∧ next ≠ zeroTime then
          { st2 with tasks := updateNextRunAt st2.tasks taskID next }
        else st2

end Cron

/-! ## Lemmas: delay repository -/

namespace Delay

theorem findRow_map_of_id_preserved (rows : List DelayTask) (id : Nat)
    (g : DelayTask → DelayTask) (hg : ∀ r, (g r).id = r.id) :
    findRow (rows.map g) id = (findRow rows id).map g := by
  induction rows with
  | nil => rfl
  | cons r rs ih =>
    by_cases h : r.id = id
    · simp [findRow, List.find?, hg, h]
    · simpa [findRow, List.find?, hg, h] using ih

theorem updById_id_preserved (id : Nat) (f : DelayTask → DelayTask)
    (hf : ∀ r, (f r).id = r.id) :
    ∀ r, ((fun r => if r.id = id then f r else r) r).id = r.id := by
  intro r
  by_cases h : r.id = id <;> simp [h, hf]

theorem findRow_updById (rows : List DelayTask) (id tid : Nat)
    (f : DelayTask → DelayTask) (hf : ∀ r, (f r).id = r.id) :
    findRow (updById tid f rows) id
      = (findRow rows id).map (fun r => if r.id = tid then f r else r) := by
  unfold updById
  exact findRow_map_of_id_preserved rows id _ (updById_id_preserved tid f hf)

theorem findRow_mem (rows : List DelayTask) (id : Nat) (r : DelayTask)
    (h : findRow rows id = some r) : r ∈ rows ∧ r.id = id := by
  refine ⟨List.mem_of_find?_eq_some h, ?_⟩
  have := List.find?_some h
  simpa using this

theorem findRow_isSome_of_mem (rows : List DelayTask) (r : DelayTask)
    (h : r ∈ rows) : (findRow rows r.id).isSome := by
  induction rows with
  | nil => cases h
  | cons x xs ih =>
    by_cases hx : x.id = r.id
    · simp [findRow, List.find?, hx]
    · rcases List.mem_cons.mp h with h1 | h1
      · subst h1; exact absurd rfl hx
      · simpa [findRow, List.find?, hx] using ih h1

theorem unique_of_nodup (rows : List DelayTask) (hnd : (rowIds rows).Nodup)
    {x y : DelayTask} (hx : x ∈ rows) (hy : y ∈ rows) (h : x.id = y.id) :
    x = y := by
  have hnd' : (rows.map (fun r => r.id)).Nodup := hnd
  exact List.inj_on_of_nodup_map hnd' hx hy h

theorem findRow_self_of_nodup (rows : List DelayTask) (r : DelayTask)
    (hnd : (rowIds rows).Nodup) (hmem : r ∈ rows) :
    findRow rows r.id = some r := by
  rcases Option.isSome_iff_exists.mp (findRow_isSome_of_mem rows r hmem) with ⟨x, hx⟩
  rcases findRow_mem rows r.id x hx with ⟨hxmem, hxid⟩
  have : x = r := unique_of_nodup rows hnd hxmem hmem hxid
  rw [hx, this]

theorem countP_id_pos (rows : List DelayTask) (id : Nat) (r : DelayTask)
    (h : findRow rows id = some r) :
    rows.countP (fun x => decide (x.id = id)) ≠ 0 := by
  rcases findRow_mem rows id r h with ⟨hmem, hid⟩
  have : 0 < rows.countP (fun x => decide (x.id = id)) :=
    List.countP_pos_iff.mpr ⟨r, hmem, by simpa using hid⟩
  omega

/-- Successful `UpdateStatusByID` when the row exists. -/
theorem updateStatusByID_ok (rows : List DelayTask) (id : Nat) (r : DelayTask)
    (status : TaskStatus) (result errMsg : String) (now : Int)
    (h : findRow rows id = some r) :
    updateStatusByID rows id status result errMsg now
      = .ok (updById id (fun x => applyStatusUpdate x status result errMsg now) rows) := by
  unfold updateStatusByID
  simp [countP_id_pos rows id r h]

theorem applyStatusUpdate_id (r : DelayTask) (status : TaskStatus)
    (result errMsg : String) (now : Int) :
    (applyStatusUpdate r status result errMsg now).id = r.id := rfl

theorem findRow_after_update (rows : List DelayTask) (id : Nat) (r : DelayTask)
    (status : TaskStatus) (result errMsg : String) (now : Int)
    (h : findRow rows id = some r) :
    findRow (updById id (fun x => applyStatusUpdate x status result errMsg now) rows) id
      = some (applyStatusUpdate r status result errMsg now) := by
  rw [findRow_updById rows id id _ (fun x => applyStatusUpdate_id x status result errMsg now)]
  rw [h]
  have := (findRow_mem rows id r h).2
  simp [this]

/-! ## Lemmas: startup recovery -/

theorem countP_id_zero (rows : List DelayTask) (id : Nat)
    (h : findRow rows id = none) :
    rows.countP (fun x => decide (x.id = id)) = 0 := by
  rw [List.countP_eq_zero]
  intro a ha
  have := List.find?_eq_none.mp h a ha
  simpa using this

theorem markAsMissedByID_none (rows : List DelayTask) (id : Nat) (now : Int)
    (h : findRow rows id = none) :
    markAsMissedByID rows id now = .error .notFound := by
  unfold markAsMissedByID updateStatusByID
  simp [countP_id_zero rows id h]

theorem markAsMissedByID_some (rows : List DelayTask) (id : Nat)
    (r : DelayTask) (now : Int) (h : findRow rows id = some r) :
    markAsMissedByID rows id now
      = .ok (updById id (fun x => applyStatusUpdate x .missed "" missedMsg now) rows) := by
  unfold markAsMissedByID
  exact updateStatusByID_ok rows id r .missed "" missedMsg now h

theorem recoverStep_frame (now : Int) (st : State) (task : DelayTask)
    (id : Nat) (hne : id ≠ task.id) :
    findRow (recoverStep now st task).rows id = findRow st.rows id
      ∧ (id ∈ (recoverStep now st task).timers ↔ id ∈ st.timers) := by
  unfold recoverStep
  cases hexp : task.IsExpired now with
  | false =>
    simp only [hexp, Bool.false_eq_true, if_false]
    unfold scheduleTask
    refine ⟨rfl, ?_⟩
    simp [List.mem_filter, hne]
  | true =>
    simp only [hexp, if_true]
    cases hfr : findRow st.rows task.id with
    | none =>
      rw [markAsMissedByID_none st.rows task.id now hfr]
      exact ⟨rfl, Iff.rfl⟩
    | some r =>
      rw [markAsMissedByID_some st.rows task.id r now hfr]
      refine ⟨?_, Iff.rfl⟩
      rw [findRow_updById st.rows id task.id _
        (fun x => applyStatusUpdate_id x .missed "" missedMsg now)]
      cases hfind : findRow st.rows id with
      | none => rfl
      | some r2 =>
        have hid := (findRow_mem st.rows id r2 hfind).2
        simp [hid, hne]

theorem recoverFold_frame (now : Int) (l : List DelayTask) (st : State)
    (id : Nat) (hni : ∀ t ∈ l, id ≠ t.id) :
    findRow (l.foldl (recoverStep now) st).rows id = findRow st.rows id
      ∧ (id ∈ (l.foldl (recoverStep now) st).timers ↔ id ∈ st.timers) := by
  induction l generalizing st with
  | nil => simp
  | cons t ts ih =>
    have hstep := recoverStep_frame now st t id (hni t (by simp))
    have hrest := ih (recoverStep now st t) (fun x hx => hni x (by simp [hx]))
    simp only [List.foldl_cons]
    exact ⟨hrest.1.trans hstep.1, hrest.2.trans hstep.2⟩

theorem recoverStep_self_expired (now : Int) (st : State) (task : DelayTask)
    (hfind : findRow st.rows task.id = some task)
    (hexp : task.IsExpired now = true) :
    findRow (recoverStep now st task).rows task.id = some (markMissed task now)
      ∧ (recoverStep now st task).timers = st.timers := by
  unfold recoverStep
  simp only [hexp, if_true]
  rw [markAsMissedByID_some st.rows task.id task now hfind]
  exact ⟨findRow_after_update st.rows task.id task .missed "" missedMsg now hfind, rfl⟩

theorem recoverStep_self_fresh (now : Int) (st : State) (task : DelayTask)
    (hexp : task.IsExpired now = false) :
    (recoverStep now st task).rows = st.rows
      ∧ task.id ∈ (recoverStep now st task).timers := by
  unfold recoverStep
  simp only [hexp, Bool.false_eq_true, if_false]
  unfold scheduleTask
  simp

theorem listPending_ids_nodup (rows : List DelayTask)
    (hnd : (rowIds rows).Nodup) :
    ((listPending rows).map (fun r => r.id)).Nodup := by
  have hsub : List.Sublist (listPending rows) rows := List.filter_sublist rows
  exact List.Nodup.sublist (List.Sublist.map (fun r => r.id) hsub) hnd

theorem mem_listPending (rows : List DelayTask) (r : DelayTask)
    (hmem : r ∈ rows) (hp : r.status = .pending) : r ∈ listPending rows :=
  List.mem_filter.mpr ⟨hmem, by simp [hp]⟩

/-- Per-id characterization of `recoverTasks`: a pending row is marked
missed exactly when it is expired, and is re-armed (timer registered)
exactly when it is not. -/
theorem recoverTasks_on_pending (st : State) (now : Int) (row : DelayTask)
    (hnd : (rowIds st.rows).Nodup) (hmem : row ∈ st.rows)
    (hp : row.status = .pending) :
    (row.IsExpired now = true →
      findRow (recoverTasks st now).rows row.id = some (markMissed row now)
        ∧ (row.id ∉ st.timers → row.id ∉ (recoverTasks st now).timers))
      ∧ (row.IsExpired now = false →
        findRow (recoverTasks st now).rows row.id = some row
          ∧ row.id ∈ (recoverTasks st now).timers) := by
  have hrowpend : row ∈ listPending st.rows := mem_listPending st.rows row hmem hp
  rcases List.append_of_mem hrowpend with ⟨l1, l2, hsplit⟩
  have hndp := listPending_ids_nodup st.rows hnd
  rw [hsplit] at hndp
  have hndp' : (l1.map (fun r => r.id) ++ row.id :: l2.map (fun r => r.id)).Nodup := by
    simpa using hndp
  rcases List.nodup_append.mp hndp' with ⟨hnd1, hnd2, hdisj⟩
  have hninl1 : ∀ t ∈ l1, row.id ≠ t.id := by
    intro t ht hid
    exact hdisj (List.mem_map.mpr ⟨t, ht, hid.symm⟩) (by simp)
  have hninl2 : ∀ t ∈ l2, row.id ≠ t.id := by
    intro t ht hid
    have hni : row.id ∉ l2.map (fun r => r.id) := (List.nodup_cons.mp hnd2).1
    exact hni (List.mem_map.mpr ⟨t, ht, hid.symm⟩)
  unfold recoverTasks
  rw [hsplit, List.foldl_append, List.foldl_cons]
  have hframe1 := recoverFold_frame now l1 st row.id hninl1
  have hfind1 : findRow (l1.foldl (recoverStep now) st).rows row.id = some row := by
    rw [hframe1.1]
    exact findRow_self_of_nodup st.rows row hnd hmem
  constructor
  · intro hexp
    have hstep := recoverStep_self_expired now (l1.foldl (recoverStep now) st) row hfind1 hexp
    have hframe2 := recoverFold_frame now l2
      (recoverStep now (l1.foldl (recoverStep now) st) row) row.id hninl2
    refine ⟨hframe2.1.trans hstep.1, ?_⟩
    intro hnt hin
    rw [hframe2.2, hstep.2, hframe1.2] at hin
    exact hnt hin
  · intro hexp
    have hstep := recoverStep_self_fresh now (l1.foldl (recoverStep now) st) row hexp
    have hframe2 := recoverFold_frame now l2
      (recoverStep now (l1.foldl (recoverStep now) st) row) row.id hninl2
    constructor
    · rw [hframe2.1, hstep.1, hfind1]
    · rw [hframe2.2]
      exact hstep.2

/-! ## Lemmas: status updates, cancellation, execution -/

theorem rowIds_updById (rows : List DelayTask) (id : Nat)
    (f : DelayTask → DelayTask) (hf : ∀ r, (f r).id = r.id) :
    rowIds (updById id f rows) = rowIds rows := by
  unfold rowIds updById
  rw [List.map_map]
  apply List.map_congr_left
  intro r _
  by_cases h : r.id = id <;> simp [h, hf]

theorem markMissed_id (r : DelayTask) (now : Int) :
    (markMissed r now).id = r.id := rfl

theorem markMissed_idem (r : DelayTask) (now : Int) :
    markMissed (markMissed r now) now = markMissed r now := by
  have hm : missedMsg ≠ "" := by decide
  simp [markMissed, applyStatusUpdate, hm]

theorem resultErrorOK_apply (r : DelayTask) (status : TaskStatus)
    (res err : String) (now : Int) (_h : resultErrorOK r)
    (hres : res ≠ "" → status = .completed)
    (herr : err ≠ "" → status = .failed ∨ status = .missed)
    (hstale1 : r.result ≠ "" → status = .completed)
    (hstale2 : r.error ≠ "" → status = .failed ∨ status = .missed) :
    resultErrorOK (applyStatusUpdate r status res err now) := by
  unfold resultErrorOK applyStatusUpdate
  constructor
  · intro hr
    by_cases hres' : res ≠ "" <;> simp only [hres', if_true, if_false, ite_true,
      ite_false, reduceIte] at hr ⊢
    · exact hres hres'
    · exact hstale1 hr
  · intro he
    by_cases herr' : err ≠ "" <;> simp only [herr', if_true, if_false, ite_true,
      ite_false, reduceIte] at he ⊢
    · exact herr herr'
    · exact hstale2 he

theorem mem_updById (rows : List DelayTask) (id : Nat)
    (f : DelayTask → DelayTask) (x : DelayTask)
    (hx : x ∈ updById id f rows) :
    ∃ r ∈ rows, x = if r.id = id then f r else r := by
  unfold updById at hx
  rcases List.mem_map.mp hx with ⟨r, hr, hxr⟩
  exact ⟨r, hr, hxr.symm⟩

theorem allOK_updOneRow (rows : List DelayTask) (id : Nat) (task : DelayTask)
    (hnd : (rowIds rows).Nodup) (hfr : findRow rows id = some task)
    (hall : ∀ r ∈ rows, resultErrorOK r) (status : TaskStatus)
    (res err : String) (now : Int)
    (hres : res ≠ "" → status = .completed)
    (herr : err ≠ "" → status = .failed ∨ status = .missed)
    (hstale1 : task.result ≠ "" → status = .completed)
    (hstale2 : task.error ≠ "" → status = .failed ∨ status = .missed) :
    ∀ x ∈ updById id (fun r => applyStatusUpdate r status res err now) rows,
      resultErrorOK x := by
  intro x hx
  rcases mem_updById rows id _ x hx with ⟨r, hr, hxr⟩
  by_cases hid : r.id = id
  · have htask := findRow_mem rows id task hfr
    have : r = task := unique_of_nodup rows hnd hr htask.1 (by rw [hid, htask.2])
    subst this
    rw [hxr]
    simp only [hid, if_true, ite_true, reduceIte]
    exact resultErrorOK_apply r status res err now (hall r hr) hres herr hstale1 hstale2
  · rw [hxr]
    simp only [hid, if_false, ite_false, reduceIte]
    exact hall r hr

/-- Pending rows satisfying the discipline have both text fields empty. -/
theorem pending_fields_empty (r : DelayTask) (h : resultErrorOK r)
    (hp : r.status = .pending) : r.result = "" ∧ r.error = "" := by
  constructor
  · by_contra hr
    have := h.1 hr
    rw [hp] at this
    cases this
  · by_contra hr
    have := h.2 hr
    rcases this with h2 | h2 <;> rw [hp] at h2 <;> cases h2

theorem recoverStep_mem_shape (now : Int) (orig : List DelayTask)
    (hnd : (rowIds orig).Nodup) (t : DelayTask)
    (ht : t ∈ orig ∧ t.status = .pending) (acc : State)
    (hacc : ∀ x ∈ acc.rows, ∃ r ∈ orig,
      x = r ∨ (r.status = .pending ∧ x = markMissed r now)) :
    ∀ x ∈ (recoverStep now acc t).rows, ∃ r ∈ orig,
      x = r ∨ (r.status = .pending ∧ x = markMissed r now) := by
  unfold recoverStep
  cases hexp : t.IsExpired now with
  | false =>
    simp only [hexp, Bool.false_eq_true, if_false]
    unfold scheduleTask
    simpa using hacc
  | true =>
    simp only [hexp, if_true]
    cases hm : markAsMissedByID acc.rows t.id now with
    | error e => simpa using hacc
    | ok rows' =>
      unfold markAsMissedByID updateStatusByID at hm
      by_cases hz : List.countP (fun r => decide (r.id = t.id)) acc.rows = 0
      · simp [hz] at hm
      · simp only [hz, if_false, Except.ok.injEq, reduceIte] at hm
        subst hm
        intro x hx
        rcases mem_updById acc.rows t.id _ x hx with ⟨r', hr', hxr⟩
        by_cases hid : r'.id = t.id
        · simp only [hid, if_true, ite_true, reduceIte] at hxr
          rcases hacc r' hr' with ⟨r, hr, hcase⟩
          have hrid : r.id = t.id := by
            rcases hcase with h | h
            · rw [← h, hid]
            · rw [← markMissed_id r now, ← h.2, hid]
          have hrt : r = t := unique_of_nodup orig hnd hr ht.1 (by rw [hrid])
          refine ⟨r, hr, Or.inr ⟨by rw [hrt]; exact ht.2, ?_⟩⟩
          rcases hcase with h | h
          · rw [hxr, h]
            rfl
          · rw [hxr, h.2]
            exact markMissed_idem r now
        · simp only [hid, if_false, ite_false, reduceIte] at hxr
          rw [hxr]
          exact hacc r' hr'

theorem recoverFold_mem_shape (now : Int) (orig : List DelayTask)
    (hnd : (rowIds orig).Nodup) (l : List DelayTask)
    (hsub : ∀ t ∈ l, t ∈ orig ∧ t.status = .pending) (acc : State)
    (hacc : ∀ x ∈ acc.rows, ∃ r ∈ orig,
      x = r ∨ (r.status = .pending ∧ x = markMissed r now)) :
    ∀ x ∈ (l.foldl (recoverStep now) acc).rows, ∃ r ∈ orig,
      x = r ∨ (r.status = .pending ∧ x = markMissed r now) := by
  induction l generalizing acc with
  | nil => simpa using hacc
  | cons t ts ih =>
    simp only [List.foldl_cons]
    exact ih (fun u hu => hsub u (by simp [hu]))
      (recoverStep now acc t)
      (recoverStep_mem_shape now orig hnd t (hsub t (by simp)) acc hacc)

/-- Every row produced by `recoverTasks` is either an untouched original
row or a pending original row marked missed. -/
theorem recoverTasks_mem_shape (st : State) (now : Int)
    (hnd : (rowIds st.rows).Nodup) :
    ∀ x ∈ (recoverTasks st now).rows, ∃ r ∈ st.rows,
      x = r ∨ (r.status = .pending ∧ x = markMissed r now) := by
  unfold recoverTasks
  refine recoverFold_mem_shape now st.rows hnd (listPending st.rows) ?_ st ?_
  · intro t ht
    have := List.mem_filter.mp ht
    exact ⟨this.1, by simpa using this.2⟩
  · intro x hx
    exact ⟨x, hx, Or.inl rfl⟩

end Delay

/-! ## Lemmas: civil time and `Next` monotonicity -/

theorem dim_ge (y m : Nat) : 28 ≤ daysInMonth y m := by
  unfold daysInMonth
  split <;> try split
  all_goals omega

theorem dim_le (y m : Nat) : daysInMonth y m ≤ 31 := by
  unfold daysInMonth
  split <;> try split
  all_goals omega

theorem dtKey_decompose (t : DateTime) :
    dtKey t = (minuteKey t) * 60 + t.second
      ∧ minuteKey t = (hourKey t) * 60 + t.minute
      ∧ hourKey t = (dayKey t) * 24 + t.hour
      ∧ dayKey t = (monthKey t) * 32 + t.day := by
  unfold dtKey minuteKey hourKey dayKey monthKey
  omega

theorem dtKey_lt_of_minuteKey_lt (a b : DateTime) (ha : a.second ≤ 59)
    (h : minuteKey a < minuteKey b) : dtKey a < dtKey b := by
  obtain ⟨e1, _, _, _⟩ := dtKey_decompose a
  obtain ⟨f1, _, _, _⟩ := dtKey_decompose b
  omega

theorem minuteKey_lt_of_hourKey_lt (a b : DateTime) (ha : a.minute ≤ 59)
    (h : hourKey a < hourKey b) : minuteKey a < minuteKey b := by
  obtain ⟨_, e2, _, _⟩ := dtKey_decompose a
  obtain ⟨_, f2, _, _⟩ := dtKey_decompose b
  omega

theorem hourKey_lt_of_dayKey_lt (a b : DateTime) (ha : a.hour ≤ 23)
    (h : dayKey a < dayKey b) : hourKey a < hourKey b := by
  obtain ⟨_, _, e3, _⟩ := dtKey_decompose a
  obtain ⟨_, _, f3, _⟩ := dtKey_decompose b
  omega

theorem dayKey_lt_of_monthKey_lt (a b : DateTime) (ha : a.day ≤ 31)
    (hb : 1 ≤ b.day) (h : monthKey a < monthKey b) : dayKey a < dayKey b := by
  obtain ⟨_, _, _, e4⟩ := dtKey_decompose a
  obtain ⟨_, _, _, f4⟩ := dtKey_decompose b
  omega

theorem dtKey_lt_of_dayKey_lt (a b : DateTime) (hw : DTWF a)
    (h : dayKey a < dayKey b) : dtKey a < dtKey b := by
  obtain ⟨_, _, _, _, h5, h6, h7⟩ := hw
  exact dtKey_lt_of_minuteKey_lt a b h7
    (minuteKey_lt_of_hourKey_lt a b h6 (hourKey_lt_of_dayKey_lt a b h5 h))

theorem dtKey_lt_of_hourKey_lt (a b : DateTime) (hw : DTWF a)
    (h : hourKey a < hourKey b) : dtKey a < dtKey b := by
  obtain ⟨_, _, _, _, _, h6, h7⟩ := hw
  exact dtKey_lt_of_minuteKey_lt a b h7 (minuteKey_lt_of_hourKey_lt a b h6 h)

/-- `AddDate(0, 0, 1)`: advances the day-part key and preserves the time
of day. -/
theorem addDay_spec (t : DateTime) (h : DTWF t) :
    DTWF (addDay t) ∧ dayKey t < dayKey (addDay t)
      ∧ (addDay t).hour = t.hour ∧ (addDay t).minute = t.minute
      ∧ (addDay t).second = t.second := by
  obtain ⟨y, m, d, hh, mi, s⟩ := t
  obtain ⟨h1, h2, h3, h4, h5, h6, h7⟩ := h
  dsimp only at h1 h2 h3 h4 h5 h6 h7
  have hd1 : 28 ≤ daysInMonth y m := dim_ge y m
  have hd2 : daysInMonth y m ≤ 31 := dim_le y m
  have he1 : 28 ≤ daysInMonth y (m + 1) := dim_ge y (m + 1)
  have hy1 : 28 ≤ daysInMonth (y + 1) 1 := dim_ge (y + 1) 1
  unfold addDay
  dsimp only
  by_cases hc1 : d + 1 ≤ daysInMonth y m
  · simp only [hc1, if_true, reduceIte]
    refine ⟨⟨h1, h2, by dsimp only; omega, by dsimp only; omega, h5, h6, h7⟩, ?_, trivial, trivial, trivial⟩
    unfold dayKey monthKey; dsimp only; omega
  · simp only [hc1, if_false, reduceIte]
    by_cases hc2 : m + 1 ≤ 12
    · simp only [hc2, if_true, reduceIte]
      refine ⟨⟨by dsimp only; omega, by dsimp only; omega, by dsimp only; omega, by dsimp only; omega, h5, h6, h7⟩, ?_, trivial, trivial, trivial⟩
      unfold dayKey monthKey; dsimp only; omega
    · simp only [hc2, if_false, reduceIte]
      refine ⟨⟨by dsimp only; omega, by dsimp only; omega, by dsimp only; omega, by dsimp only; omega, h5, h6, h7⟩, ?_, trivial, trivial, trivial⟩
      unfold dayKey monthKey; dsimp only; omega

/-- `Add(time.Hour)`: advances the hour-part key and preserves
minute/second. -/
theorem addHour_spec (t : DateTime) (h : DTWF t) :
    DTWF (addHour t) ∧ hourKey t < hourKey (addHour t)
      ∧ (addHour t).minute = t.minute ∧ (addHour t).second = t.second := by
  obtain ⟨g1, g2, g3, g4, g5, g6, g7⟩ := h
  unfold addHour
  by_cases hc : t.hour + 1 ≤ 23
  · simp only [hc, if_true, reduceIte]
    refine ⟨⟨g1, g2, g3, g4, by dsimp only; omega, g6, g7⟩, ?_, trivial, trivial⟩
    unfold hourKey dayKey monthKey
    dsimp only
    omega
  · simp only [hc, if_false, reduceIte]
    obtain ⟨w, hdk, hph, hpm, hps⟩ := addDay_spec t ⟨g1, g2, g3, g4, g5, g6, g7⟩
    obtain ⟨w1, w2, w3, w4, w5, w6, w7⟩ := w
    refine ⟨⟨w1, w2, w3, w4, Nat.zero_le 23, w6, w7⟩, ?_, hpm, hps⟩
    have q1 : hourKey (⟨(addDay t).year, (addDay t).month, (addDay t).day, 0,
          (addDay t).minute, (addDay t).second⟩ : DateTime)
        = dayKey (addDay t) * 24 := by
      have hq := (dtKey_decompose ⟨(addDay t).year, (addDay t).month, (addDay t).day, 0,
        (addDay t).minute, (addDay t).second⟩).2.2.1
      dsimp only at hq
      have q3 : dayKey (⟨(addDay t).year, (addDay t).month, (addDay t).day, 0,
          (addDay t).minute, (addDay t).second⟩ : DateTime) = dayKey (addDay t) := rfl
      omega
    have q4 : hourKey t = dayKey t * 24 + t.hour := (dtKey_decompose t).2.2.1
    omega

/-- `Add(time.Minute)`: advances the minute-part key and preserves the
second. -/
theorem addMinute_spec (t : DateTime) (h : DTWF t) :
    DTWF (addMinute t) ∧ minuteKey t < minuteKey (addMinute t)
      ∧ (addMinute t).second = t.second := by
  obtain ⟨g1, g2, g3, g4, g5, g6, g7⟩ := h
  unfold addMinute
  by_cases hc : t.minute + 1 ≤ 59
  · simp only [hc, if_true, reduceIte]
    refine ⟨⟨g1, g2, g3, g4, g5, by dsimp only; omega, g7⟩, ?_, trivial⟩
    unfold minuteKey hourKey dayKey monthKey
    dsimp only
    omega
  · simp only [hc, if_false, reduceIte]
    obtain ⟨w, hhk, hpm, hps⟩ := addHour_spec t ⟨g1, g2, g3, g4, g5, g6, g7⟩
    obtain ⟨w1, w2, w3, w4, w5, w6, w7⟩ := w
    refine ⟨⟨w1, w2, w3, w4, w5, Nat.zero_le 59, w7⟩, ?_, hps⟩
    have q1 : minuteKey (⟨(addHour t).year, (addHour t).month, (addHour t).day,
          (addHour t).hour, 0, (addHour t).second⟩ : DateTime)
        = hourKey (addHour t) * 60 := by
      have hq := (dtKey_decompose ⟨(addHour t).year, (addHour t).month, (addHour t).day,
        (addHour t).hour, 0, (addHour t).second⟩).2.1
      dsimp only at hq
      have q3 : hourKey (⟨(addHour t).year, (addHour t).month, (addHour t).day,
          (addHour t).hour, 0, (addHour t).second⟩ : DateTime) = hourKey (addHour t) := rfl
      omega
    have q4 : minuteKey t = hourKey t * 60 + t.minute := (dtKey_decompose t).2.1
    omega

/-- `Add(time.Second)`: strictly advances the instant. -/
theorem addSecond_spec (t : DateTime) (h : DTWF t) :
    DTWF (addSecond t) ∧ dtKey t < dtKey (addSecond t) := by
  obtain ⟨g1, g2, g3, g4, g5, g6, g7⟩ := h
  unfold addSecond
  by_cases hc : t.second + 1 ≤ 59
  · simp only [hc, if_true, reduceIte]
    refine ⟨⟨g1, g2, g3, g4, g5, g6, by dsimp only; omega⟩, ?_⟩
    unfold dtKey
    dsimp only
    omega
  · simp only [hc, if_false, reduceIte]
    obtain ⟨w, hmk, hps⟩ := addMinute_spec t ⟨g1, g2, g3, g4, g5, g6, g7⟩
    obtain ⟨w1, w2, w3, w4, w5, w6, w7⟩ := w
    refine ⟨⟨w1, w2, w3, w4, w5, w6, Nat.zero_le 59⟩, ?_⟩
    have q1 : dtKey (⟨(addMinute t).year, (addMinute t).month, (addMinute t).day,
          (addMinute t).hour, (addMinute t).minute, 0⟩ : DateTime)
        = minuteKey (addMinute t) * 60 := by
      have hq := (dtKey_decompose ⟨(addMinute t).year, (addMinute t).month, (addMinute t).day,
        (addMinute t).hour, (addMinute t).minute, 0⟩).1
      dsimp only at hq
      have q3 : minuteKey (⟨(addMinute t).year, (addMinute t).month, (addMinute t).day,
          (addMinute t).hour, (addMinute t).minute, 0⟩ : DateTime) = minuteKey (addMinute t) := rfl
      omega
    have q4 : dtKey t = minuteKey t * 60 + t.second := (dtKey_decompose t).1
    omega

/-- `AddDate(0, 1, 0)`: advances the month-part key and preserves the time
of day. -/
theorem addMonthGo_spec (t : DateTime) (h : DTWF t) :
    DTWF (addMonthGo t) ∧ monthKey t < monthKey (addMonthGo t)
      ∧ (addMonthGo t).hour = t.hour ∧ (addMonthGo t).minute = t.minute
      ∧ (addMonthGo t).second = t.second := by
  obtain ⟨y, m, d, hh, mi, s⟩ := t
  obtain ⟨g1, g2, g3, g4, g5, g6, g7⟩ := h
  dsimp only at g1 g2 g3 g4 g5 g6 g7
  have hdm : daysInMonth y m ≤ 31 := dim_le y m
  unfold addMonthGo
  dsimp only
  by_cases hc : m + 1 ≤ 12
  all_goals simp only [hc, if_true, if_false, reduceIte]
  · -- next month in the same year
    have ha : 28 ≤ daysInMonth y (m + 1) := dim_ge y (m + 1)
    unfold normDay
    by_cases hd : d ≤ daysInMonth y (m + 1)
    · simp only [hd, if_true, reduceIte]
      exact ⟨⟨by dsimp only; omega, by dsimp only; omega, by dsimp only; omega, by dsimp only; omega, g5, g6, g7⟩,
        by unfold monthKey; dsimp only; omega, trivial, trivial, trivial⟩
    · simp only [hd, if_false, reduceIte]
      by_cases hc2 : m + 1 + 1 ≤ 12
      all_goals simp only [hc2, if_true, if_false, reduceIte]
      · have hb : 28 ≤ daysInMonth y (m + 1 + 1) := dim_ge y (m + 1 + 1)
        by_cases hd2 : d - daysInMonth y (m + 1) ≤ daysInMonth y (m + 1 + 1)
        all_goals simp only [hd2, if_true, if_false, reduceIte]
        · exact ⟨⟨by dsimp only; omega, by dsimp only; omega, by dsimp only; omega, by dsimp only; omega, g5, g6, g7⟩,
            by unfold monthKey; dsimp only; omega, trivial, trivial, trivial⟩
        · omega
      · have hb : 28 ≤ daysInMonth (y + 1) 1 := dim_ge (y + 1) 1
        by_cases hd2 : d - daysInMonth y (m + 1) ≤ daysInMonth (y + 1) 1
        all_goals simp only [hd2, if_true, if_false, reduceIte]
        · exact ⟨⟨by dsimp only; omega, by dsimp only; omega, by dsimp only; omega, by dsimp only; omega, g5, g6, g7⟩,
            by unfold monthKey; dsimp only; omega, trivial, trivial, trivial⟩
        · omega
  · -- December: roll into January of the next year
    have ha : 28 ≤ daysInMonth (y + 1) 1 := dim_ge (y + 1) 1
    unfold normDay
    norm_num
    by_cases hd : d ≤ daysInMonth (y + 1) 1
    · simp only [hd, if_true, reduceIte]
      exact ⟨⟨by dsimp only; omega, by dsimp only; omega, by dsimp only; omega, by dsimp only; omega, g5, g6, g7⟩,
        by unfold monthKey; dsimp only; omega, trivial, trivial, trivial⟩
    · simp only [hd, if_false, reduceIte]
      have hb : 28 ≤ daysInMonth (y + 1) 2 := dim_ge (y + 1) 2
      by_cases hd2 : d ≤ daysInMonth (y + 1) 2 + daysInMonth (y + 1) 1
      · simp only [hd2, if_true, reduceIte]
        exact ⟨⟨by dsimp only; omega, by dsimp only; omega, by dsimp only; omega,
          by dsimp only; omega, g5, g6, g7⟩,
          by unfold monthKey; dsimp only; omega, trivial, trivial, trivial⟩
      · omega

theorem startOfMonth_spec (t : DateTime) (h : DTWF t) :
    DTWF (startOfMonth t) ∧ monthKey (startOfMonth t) = monthKey t := by
  obtain ⟨g1, g2, g3, g4, g5, g6, g7⟩ := h
  have := dim_ge t.year t.month
  exact ⟨⟨g1, g2, by dsimp only [startOfMonth]; omega, by dsimp only [startOfMonth]; omega,
    by dsimp only [startOfMonth]; omega, by dsimp only [startOfMonth]; omega,
    by dsimp only [startOfMonth]; omega⟩, rfl⟩

theorem startOfDay_spec (t : DateTime) (h : DTWF t) :
    DTWF (startOfDay t) ∧ dayKey (startOfDay t) = dayKey t := by
  obtain ⟨g1, g2, g3, g4, g5, g6, g7⟩ := h
  exact ⟨⟨g1, g2, g3, g4, by dsimp only [startOfDay]; omega,
    by dsimp only [startOfDay]; omega, by dsimp only [startOfDay]; omega⟩, rfl⟩

theorem truncHour_spec (t : DateTime) (h : DTWF t) :
    DTWF (truncHour t) ∧ hourKey (truncHour t) = hourKey t := by
  obtain ⟨g1, g2, g3, g4, g5, g6, g7⟩ := h
  exact ⟨⟨g1, g2, g3, g4, g5, by dsimp only [truncHour]; omega,
    by dsimp only [truncHour]; omega⟩, rfl⟩

theorem truncMinute_spec (t : DateTime) (h : DTWF t) :
    DTWF (truncMinute t) ∧ minuteKey (truncMinute t) = minuteKey t := by
  obtain ⟨g1, g2, g3, g4, g5, g6, g7⟩ := h
  exact ⟨⟨g1, g2, g3, g4, g5, g6, by dsimp only [truncMinute]; omega⟩, rfl⟩

/-- The month step strictly advances the instant, with or without the
first-iteration truncation. -/
theorem monthStep_lt (t : DateTime) (h : DTWF t) :
    (DTWF (addMonthGo t) ∧ dtKey t < dtKey (addMonthGo t))
      ∧ (DTWF (addMonthGo (startOfMonth t))
        ∧ dtKey t < dtKey (addMonthGo (startOfMonth t))) := by
  have hday : t.day ≤ 31 := by
    have := dim_le t.year t.month
    exact le_trans h.2.2.2.1 this
  constructor
  · obtain ⟨w, hmk, _, _, _⟩ := addMonthGo_spec t h
    refine ⟨w, dtKey_lt_of_dayKey_lt t _ h ?_⟩
    exact dayKey_lt_of_monthKey_lt t _ hday w.2.2.1 hmk
  · obtain ⟨w0, hk0⟩ := startOfMonth_spec t h
    obtain ⟨w, hmk, _, _, _⟩ := addMonthGo_spec (startOfMonth t) w0
    refine ⟨w, dtKey_lt_of_dayKey_lt t _ h ?_⟩
    refine dayKey_lt_of_monthKey_lt t _ hday w.2.2.1 ?_
    omega

/-- The day step strictly advances the instant. -/
theorem dayStep_lt (t : DateTime) (h : DTWF t) :
    (DTWF (addDay t) ∧ dtKey t < dtKey (addDay t))
      ∧ (DTWF (addDay (startOfDay t)) ∧ dtKey t < dtKey (addDay (startOfDay t))) := by
  constructor
  · obtain ⟨w, hdk, _, _, _⟩ := addDay_spec t h
    exact ⟨w, dtKey_lt_of_dayKey_lt t _ h hdk⟩
  · obtain ⟨w0, hk0⟩ := startOfDay_spec t h
    obtain ⟨w, hdk, _, _, _⟩ := addDay_spec (startOfDay t) w0
    exact ⟨w, dtKey_lt_of_dayKey_lt t _ h (by omega)⟩

/-- The hour step strictly advances the instant. -/
theorem hourStep_lt (t : DateTime) (h : DTWF t) :
    (DTWF (addHour t) ∧ dtKey t < dtKey (addHour t))
      ∧ (DTWF (addHour (truncHour t)) ∧ dtKey t < dtKey (addHour (truncHour t))) := by
  constructor
  · obtain ⟨w, hhk, _, _⟩ := addHour_spec t h
    exact ⟨w, dtKey_lt_of_hourKey_lt t _ h hhk⟩
  · obtain ⟨w0, hk0⟩ := truncHour_spec t h
    obtain ⟨w, hhk, _, _⟩ := addHour_spec (truncHour t) w0
    exact ⟨w, dtKey_lt_of_hourKey_lt t _ h (by omega)⟩

/-- The minute step strictly advances the instant. -/
theorem minuteStep_lt (t : DateTime) (h : DTWF t) :
    (DTWF (addMinute t) ∧ dtKey t < dtKey (addMinute t))
      ∧ (DTWF (addMinute (truncMinute t))
        ∧ dtKey t < dtKey (addMinute (truncMinute t))) := by
  constructor
  · obtain ⟨w, hmk, _⟩ := addMinute_spec t h
    exact ⟨w, dtKey_lt_of_minuteKey_lt t _ h.2.2.2.2.2.2 hmk⟩
  · obtain ⟨w0, hk0⟩ := truncMinute_spec t h
    obtain ⟨w, hmk, _⟩ := addMinute_spec (truncMinute t) w0
    exact ⟨w, dtKey_lt_of_minuteKey_lt t _ h.2.2.2.2.2.2 (by omega)⟩

/-- A field loop never moves the instant backwards and keeps it
well-formed. -/
theorem fieldLoop_le (check : DateTime → Bool) (reset : DateTime → DateTime)
    (step : DateTime → DateTime) (roll : DateTime → Bool)
    (hstep : ∀ u, DTWF u → DTWF (step u) ∧ dtKey u < dtKey (step u))
    (hreset : ∀ u, DTWF u → DTWF (step (reset u)) ∧ dtKey u < dtKey (step (reset u))) :
    ∀ fuel t added, DTWF t →
      DTWF (fieldLoop check reset step roll fuel t added).t
        ∧ dtKey t ≤ dtKey (fieldLoop check reset step roll fuel t added).t := by
  intro fuel
  induction fuel with
  | zero =>
    intro t added h
    exact ⟨h, le_refl _⟩
  | succ n ih =>
    intro t added h
    unfold fieldLoop
    by_cases hc : check t
    · simp only [hc, if_true, reduceIte]
      exact ⟨h, le_refl _⟩
    · simp only [hc, Bool.false_eq_true, if_false, reduceIte]
      cases added with
      | false =>
        simp only [Bool.not_false, Bool.false_eq_true, eq_self_iff_true, if_true,
          if_false, reduceIte]
        obtain ⟨hw2, hk2⟩ := hreset t h
        by_cases hr : roll (step (reset t))
        · simp only [hr, if_true, reduceIte]
          exact ⟨hw2, le_of_lt hk2⟩
        · simp only [hr, Bool.false_eq_true, if_false, reduceIte]
          obtain ⟨hw3, hk3⟩ := ih (step (reset t)) true hw2
          exact ⟨hw3, le_of_lt (lt_of_lt_of_le hk2 hk3)⟩
      | true =>
        simp only [Bool.not_true, Bool.false_eq_true, eq_self_iff_true, if_true,
          if_false, reduceIte]
        obtain ⟨hw2, hk2⟩ := hstep t h
        by_cases hr : roll (step t)
        · simp only [hr, if_true, reduceIte]
          exact ⟨hw2, le_of_lt hk2⟩
        · simp only [hr, Bool.false_eq_true, if_false, reduceIte]
          obtain ⟨hw3, hk3⟩ := ih (step t) true hw2
          exact ⟨hw3, le_of_lt (lt_of_lt_of_le hk2 hk3)⟩

theorem monthLoop_le (s : CronSched) (fuel : Nat) (t : DateTime) (added : Bool)
    (h : DTWF t) :
    DTWF (monthLoop s fuel t added).t ∧ dtKey t ≤ dtKey (monthLoop s fuel t added).t :=
  fieldLoop_le _ _ _ _ (fun u hu => (monthStep_lt u hu).1)
    (fun u hu => (monthStep_lt u hu).2) fuel t added h

theorem dayLoop_le (s : CronSched) (fuel : Nat) (t : DateTime) (added : Bool)
    (h : DTWF t) :
    DTWF (dayLoop s fuel t added).t ∧ dtKey t ≤ dtKey (dayLoop s fuel t added).t :=
  fieldLoop_le _ _ _ _ (fun u hu => (dayStep_lt u hu).1)
    (fun u hu => (dayStep_lt u hu).2) fuel t added h

theorem hourLoop_le (s : CronSched) (fuel : Nat) (t : DateTime) (added : Bool)
    (h : DTWF t) :
    DTWF (hourLoop s fuel t added).t ∧ dtKey t ≤ dtKey (hourLoop s fuel t added).t :=
  fieldLoop_le _ _ _ _ (fun u hu => (hourStep_lt u hu).1)
    (fun u hu => (hourStep_lt u hu).2) fuel t added h

theorem minuteLoop_le (s : CronSched) (fuel : Nat) (t : DateTime) (added : Bool)
    (h : DTWF t) :
    DTWF (minuteLoop s fuel t added).t ∧ dtKey t ≤ dtKey (minuteLoop s fuel t added).t :=
  fieldLoop_le _ _ _ _ (fun u hu => (minuteStep_lt u hu).1)
    (fun u hu => (minuteStep_lt u hu).2) fuel t added h

theorem secondLoop_le (s : CronSched) (fuel : Nat) (t : DateTime) (added : Bool)
    (h : DTWF t) :
    DTWF (secondLoop s fuel t added).t ∧ dtKey t ≤ dtKey (secondLoop s fuel t added).t :=
  fieldLoop_le _ _ _ _ (fun u hu => addSecond_spec u hu)
    (fun u hu => addSecond_spec u hu) fuel t added h

/-- `wrap` only returns instants that are well-formed and not before its
argument. -/
theorem wrap_some_le (s : CronSched) :
    ∀ fuel yl t added r, DTWF t → wrap s fuel yl t added = some r →
      DTWF r ∧ dtKey t ≤ dtKey r := by
  intro fuel
  induction fuel with
  | zero =>
    intro yl t added r _ hr
    simp [wrap] at hr
  | succ n ih =>
    intro yl t added r hw hr
    unfold wrap at hr
    by_cases hy : t.year > yl
    · simp [hy] at hr
    · simp only [hy, if_false, reduceIte] at hr
      cases hm : monthLoop s 13 t added with
      | wrapAgain u1 b1 =>
        rw [hm] at hr
        dsimp only at hr
        have hl1 := monthLoop_le s 13 t added hw
        rw [hm] at hl1
        dsimp only [LoopRes.t] at hl1
        obtain ⟨hwu1, hku1⟩ := hl1
        obtain ⟨hwr, hkr⟩ := ih yl u1 b1 r hwu1 hr
        exact ⟨hwr, le_trans hku1 (hkr)⟩
      | through t1 a1 =>
        rw [hm] at hr
        dsimp only at hr
        have hl1 := monthLoop_le s 13 t added hw
        rw [hm] at hl1
        dsimp only [LoopRes.t] at hl1
        obtain ⟨hw1, hk1⟩ := hl1
        cases hd : dayLoop s 32 t1 a1 with
        | wrapAgain u2 b2 =>
          rw [hd] at hr
          dsimp only at hr
          have hl2 := dayLoop_le s 32 t1 a1 hw1
          rw [hd] at hl2
          dsimp only [LoopRes.t] at hl2
          obtain ⟨hwu2, hku2⟩ := hl2
          obtain ⟨hwr, hkr⟩ := ih yl u2 b2 r hwu2 hr
          exact ⟨hwr, le_trans hk1 (le_trans hku2 (hkr))⟩
        | through t2 a2 =>
          rw [hd] at hr
          dsimp only at hr
          have hl2 := dayLoop_le s 32 t1 a1 hw1
          rw [hd] at hl2
          dsimp only [LoopRes.t] at hl2
          obtain ⟨hw2, hk2⟩ := hl2
          cases hh : hourLoop s 25 t2 a2 with
          | wrapAgain u3 b3 =>
            rw [hh] at hr
            dsimp only at hr
            have hl3 := hourLoop_le s 25 t2 a2 hw2
            rw [hh] at hl3
            dsimp only [LoopRes.t] at hl3
            obtain ⟨hwu3, hku3⟩ := hl3
            obtain ⟨hwr, hkr⟩ := ih yl u3 b3 r hwu3 hr
            exact ⟨hwr, le_trans hk1 (le_trans hk2 (le_trans hku3 (hkr)))⟩
          | through t3 a3 =>
            rw [hh] at hr
            dsimp only at hr
            have hl3 := hourLoop_le s 25 t2 a2 hw2
            rw [hh] at hl3
            dsimp only [LoopRes.t] at hl3
            obtain ⟨hw3, hk3⟩ := hl3
            cases hmi : minuteLoop s 61 t3 a3 with
            | wrapAgain u4 b4 =>
              rw [hmi] at hr
              dsimp only at hr
              have hl4 := minuteLoop_le s 61 t3 a3 hw3
              rw [hmi] at hl4
              dsimp only [LoopRes.t] at hl4
              obtain ⟨hwu4, hku4⟩ := hl4
              obtain ⟨hwr, hkr⟩ := ih yl u4 b4 r hwu4 hr
              exact ⟨hwr, le_trans hk1 (le_trans hk2 (le_trans hk3 (le_trans hku4 (hkr))))⟩
            | through t4 a4 =>
              rw [hmi] at hr
              dsimp only at hr
              have hl4 := minuteLoop_le s 61 t3 a3 hw3
              rw [hmi] at hl4
              dsimp only [LoopRes.t] at hl4
              obtain ⟨hw4, hk4⟩ := hl4
              cases hs : secondLoop s 61 t4 a4 with
              | wrapAgain u5 b5 =>
                rw [hs] at hr
                dsimp only at hr
                have hl5 := secondLoop_le s 61 t4 a4 hw4
                rw [hs] at hl5
                dsimp only [LoopRes.t] at hl5
                obtain ⟨hwu5, hku5⟩ := hl5
                obtain ⟨hwr, hkr⟩ := ih yl u5 b5 r hwu5 hr
                exact ⟨hwr, le_trans hk1 (le_trans hk2 (le_trans hk3 (le_trans hk4 (le_trans hku5 (hkr)))))⟩
              | through t5 a5 =>
                rw [hs] at hr
                dsimp only at hr
                have hl5 := secondLoop_le s 61 t4 a4 hw4
                rw [hs] at hl5
                dsimp only [LoopRes.t] at hl5
                obtain ⟨hw5, hk5⟩ := hl5
                simp only [Option.some.injEq] at hr
                subst hr
                exact ⟨hw5, le_trans hk1 (le_trans hk2 (le_trans hk3 (le_trans hk4 (hk5))))⟩

/-- `schedule.Next(t)` only returns instants strictly after `t` (when it
finds one within the search horizon). -/
theorem schedNext_spec (s : CronSched) (t r : DateTime) (hw : DTWF t)
    (h : schedNext s t = some r) : DTWF r ∧ dtKey t < dtKey r := by
  unfold schedNext at h
  obtain ⟨hw1, hk1⟩ := addSecond_spec t hw
  obtain ⟨hwr, hkr⟩ := wrap_some_le s 100000 ((addSecond t).year + 5) (addSecond t)
    false r hw1 h
  exact ⟨hwr, lt_of_lt_of_le hk1 hkr⟩


/-! ## Lemmas: cron scheduler -/

namespace Cron

/-- An expression accepted by the strict validation parser is accepted by
the engine's parser too (the engine's grammar only adds descriptors, and a
descriptor spec — after the same timezone stripping — fails validation). -/
theorem engineAddOk_of_parse (spec : String) (sched : CronSched)
    (hp : parseCron spec = .ok sched) : engineAddOk spec = .ok () := by
  unfold engineAddOk
  by_cases hat : hasPfx ("@").data spec.data
  · exfalso
    cases hsd : spec.data with
    | nil => simp [hasPfx, List.isPrefixOf, hsd] at hat
    | cons c cs =>
      rw [hsd] at hat
      have hc : c = '@' := by
        by_contra hne
        simp [hasPfx, List.isPrefixOf] at hat
        exact hne hat.symm
      subst hc
      have hlen : ¬spec.length = 0 := by
        intro h0
        have hnil : spec.data = [] := by
          have hl : spec.data.length = 0 := h0
          exact List.eq_nil_of_length_eq_zero hl
        rw [hnil] at hsd
        cases hsd
      have htz1 : hasPfx ("TZ=").data spec.data = false := by
        rw [hsd]
        simp [hasPfx, List.isPrefixOf]
      have htz2 : hasPfx ("CRON_TZ=").data spec.data = false := by
        rw [hsd]
        simp [hasPfx, List.isPrefixOf]
      unfold parseCron at hp
      simp only [hlen, htz1, htz2, Bool.false_eq_true, or_self, if_false, reduceIte] at hp
      rw [hsd] at hp
      simp at hp
  · simp only [hat, Bool.false_eq_true, if_false, reduceIte]
    rw [hp]

theorem deleteTask_append_fresh (tasks : List CronTask) (task : CronTask)
    (hfresh : ∀ t ∈ tasks, t.id ≠ task.id) :
    deleteTaskByID (tasks ++ [task]) task.id = .ok tasks := by
  unfold deleteTaskByID
  have hfilter : (tasks ++ [task]).filter (fun t => decide (t.id ≠ task.id)) = tasks := by
    rw [List.filter_append]
    have h1 : tasks.filter (fun t => decide (t.id ≠ task.id)) = tasks := by
      apply List.filter_eq_self.mpr
      intro a ha
      simpa using hfresh a ha
    have h2 : [task].filter (fun t => decide (t.id ≠ task.id)) = [] := by
      simp [List.filter]
    rw [h1, h2, List.append_nil]
  rw [hfilter]
  have hne : ¬tasks.length = (tasks ++ [task]).length := by
    simp
  simp only [hne, if_false, reduceIte]

theorem updExec_frozen (execs : List CronExecution) (k : Nat)
    (f : CronExecution → CronExecution)
    (hfresh : ∀ e ∈ execs, e.id ≠ k) :
    execs.map (fun e => if e.id = k then f e else e) = execs := by
  induction execs with
  | nil => rfl
  | cons e es ih =>
    simp only [List.map_cons]
    rw [ih (fun x hx => hfresh x (by simp [hx]))]
    simp [hfresh e (by simp)]

/-- `finishExecution` on a state whose newest execution row has the given
fresh id finalizes exactly that row. -/
theorem finishExecution_append (st : State) (old : List CronExecution)
    (exec : CronExecution) (hst : st.execs = old ++ [exec])
    (hfresh : ∀ e ∈ old, e.id ≠ exec.id) (hk : ¬exec.id = 0)
    (finishedAt : DateTime) (status : CronExecStatus) (result errMsg : String) :
    (finishExecution st exec.id finishedAt status result errMsg).execs
      = old ++ [{ exec with
          finishedAt := some finishedAt, status := status, result := result,
          error := errMsg,
          duration := (dtToSecs finishedAt - dtToSecs exec.startedAt) * 1000 }] := by
  unfold finishExecution
  simp only [hk, if_false, reduceIte]
  rw [hst, List.map_append]
  rw [updExec_frozen old exec.id _ hfresh]
  simp

end Cron

namespace Delay

theorem markMissed_eq (r : DelayTask) (now : Int) :
    markMissed r now = { r with status := .missed, error := missedMsg } := by
  unfold markMissed applyStatusUpdate
  have h1 : missedMsg ≠ "" := by decide
  simp [h1]

theorem countP_conj_zero_of_none (rows : List DelayTask) (id : Nat)
    (p : DelayTask → Prop) [DecidablePred p] (h : findRow rows id = none) :
    rows.countP (fun r => decide (r.id = id ∧ p r)) = 0 := by
  rw [List.countP_eq_zero]
  intro a ha
  have := List.find?_eq_none.mp h a ha
  simp at this
  simp [this]

theorem countP_pend_pos (rows : List DelayTask) (id : Nat) (row : DelayTask)
    (h : findRow rows id = some row) (hp : row.status = .pending) :
    rows.countP (fun r => decide (r.id = id ∧ r.status = .pending)) ≠ 0 := by
  rcases findRow_mem rows id row h with ⟨hmem, hid⟩
  have : 0 < rows.countP (fun r => decide (r.id = id ∧ r.status = .pending)) :=
    List.countP_pos_iff.mpr ⟨row, hmem, by simp [hid, hp]⟩
  omega

theorem countP_pend_zero_of_notpend (rows : List DelayTask) (id : Nat)
    (row : DelayTask) (hnd : (rowIds rows).Nodup)
    (h : findRow rows id = some row) (hp : row.status ≠ .pending) :
    rows.countP (fun r => decide (r.id = id ∧ r.status = .pending)) = 0 := by
  rw [List.countP_eq_zero]
  intro a ha
  simp only [decide_eq_true_eq, not_and]
  intro haid
  rcases findRow_mem rows id row h with ⟨hmem, hid⟩
  have : a = row := unique_of_nodup rows hnd ha hmem (by rw [haid, hid])
  rw [this]
  exact hp

theorem cancelByID_ok (rows : List DelayTask) (id : Nat) (row : DelayTask)
    (h : findRow rows id = some row) (hp : row.status = .pending) :
    cancelByID rows id = .ok (rows.map (fun r =>
      if r.id = id ∧ r.status = .pending then { r with status := .cancelled } else r)) := by
  unfold cancelByID
  simp only [countP_pend_pos rows id row h hp, if_false, reduceIte]

theorem cancelByID_notFound (rows : List DelayTask) (id : Nat)
    (h : findRow rows id = none) : cancelByID rows id = .error .notFound := by
  unfold cancelByID
  have h1 := countP_conj_zero_of_none rows id (fun r => r.status = .pending) h
  have h2 := countP_id_zero rows id h
  simp only [h1, h2, if_true, reduceIte]

theorem cancelByID_notPending (rows : List DelayTask) (id : Nat)
    (row : DelayTask) (hnd : (rowIds rows).Nodup)
    (h : findRow rows id = some row) (hp : row.status ≠ .pending) :
    cancelByID rows id = .error .notPending := by
  unfold cancelByID
  have h1 := countP_pend_zero_of_notpend rows id row hnd h hp
  have h2 := countP_id_pos rows id row h
  simp only [h1, h2, if_true, if_false, reduceIte]

/-- The row map used by `CancelByID` preserves ids. -/
theorem cancelMap_id (id : Nat) : ∀ r : DelayTask,
    ((fun r => if r.id = id ∧ r.status = .pending then { r with status := TaskStatus.cancelled } else r) r).id
      = r.id := by
  intro r
  by_cases h : r.id = id ∧ r.status = .pending <;> simp [h]

end Delay

namespace Delay

theorem rowIds_map (rows : List DelayTask) (g : DelayTask → DelayTask)
    (hg : ∀ r, (g r).id = r.id) : rowIds (rows.map g) = rowIds rows := by
  unfold rowIds
  rw [List.map_map]
  apply List.map_congr_left
  intro r _
  simp [hg]

end Delay

/-! ## Claim theorems -/

/-- C1 (counterexample to the claim as stated): a pending row whose
`run_at` equals "now" — so `run_at` is *not after* the current time — is
not marked missed by recovery; `IsExpired` uses `time.Now().After(RunAt)`,
which is strict, so the row stays pending and a timer is re-armed. -/
theorem recovery_boundary_counterexample :
    ¬ ((5 : Int) < 5)
      ∧ Delay.findRow (Delay.recoverTasks
          ⟨[⟨1, "t", 5, "p", "", .pending, "", "", none⟩], 2, [], false⟩ 5).rows 1
          = some ⟨1, "t", 5, "p", "", .pending, "", "", none⟩
      ∧ (1 : Nat) ∈ (Delay.recoverTasks
          ⟨[⟨1, "t", 5, "p", "", .pending, "", "", none⟩], 2, [], false⟩ 5).timers := by
  decide

/-- C1 (amended): for every persisted pending delay row at the moment
`Start` runs, recovery marks the row missed — never running or
completed — exactly when its `run_at` is strictly before the current
time, without arming a timer; when `run_at` is not strictly in the past
(including `run_at` equal to now) it re-arms a one-shot timer for the row
exactly as `CreateTask` does and leaves the row pending. -/
theorem recovery_marks_strictly_overdue_missed (st : Delay.State) (now : Int)
    (row : DelayTask) (hnd : (Delay.rowIds st.rows).Nodup) (hmem : row ∈ st.rows)
    (hp : row.status = .pending) (ht : row.id ∉ st.timers) :
    (row.runAt < now →
      Delay.findRow (Delay.recoverTasks st now).rows row.id
          = some { row with status := .missed, error := Delay.missedMsg }
        ∧ row.id ∉ (Delay.recoverTasks st now).timers)
    ∧ (now ≤ row.runAt →
      Delay.findRow (Delay.recoverTasks st now).rows row.id = some row
        ∧ row.id ∈ (Delay.recoverTasks st now).timers) := by
  have h := Delay.recoverTasks_on_pending st now row hnd hmem hp
  constructor
  · intro hlt
    have hexp : row.IsExpired now = true := by
      simp [DelayTask.IsExpired, hlt]
    have h1 := h.1 hexp
    rw [Delay.markMissed_eq] at h1
    exact ⟨h1.1, h1.2 ht⟩
  · intro hle
    have hexp : row.IsExpired now = false := by
      simp only [DelayTask.IsExpired, decide_eq_false_iff_not]
      omega
    exact h.2 hexp

/-- Witness for the amended C1 at a concrete overdue row. -/
theorem recovery_marks_strictly_overdue_missed_witness :
    Delay.findRow (Delay.recoverTasks
        ⟨[⟨1, "t", 3, "p", "", .pending, "", "", none⟩], 2, [], false⟩ 5).rows 1
        = some ⟨1, "t", 3, "p", "", .missed, "", Delay.missedMsg, none⟩
      ∧ (1 : Nat) ∉ (Delay.recoverTasks
        ⟨[⟨1, "t", 3, "p", "", .pending, "", "", none⟩], 2, [], false⟩ 5).timers := by
  have h := recovery_marks_strictly_overdue_missed
    ⟨[⟨1, "t", 3, "p", "", .pending, "", "", none⟩], 2, [], false⟩ 5
    ⟨1, "t", 3, "p", "", .pending, "", "", none⟩
    (by decide) (by decide) (by decide) (by decide)
  exact h.1 (by decide)

/-- C3 (counterexample to the claim as stated): `CreateTask` checks
`runAt.Before(now)`, which is strict, so a task whose `run_at` equals the
current time — hence "less than or equal to" it — is accepted: a pending
row is persisted and returned rather than rejected. -/
theorem delay_create_boundary_counterexample :
    (Delay.createTask ⟨[], 1, [], false⟩ 0 ("n") 0 ("p") none).2.rows
        = [⟨1, "n", 0, "p", "", .pending, "", "", none⟩]
      ∧ (Delay.createTask ⟨[], 1, [], false⟩ 0 ("n") 0 ("p") none).1
          = .ok ⟨1, "n", 0, "p", "", .pending, "", "", none⟩
      ∧ ¬ ((0 : Int) < 0) := by
  refine ⟨rfl, rfl, by decide⟩

/-- C3 (amended): `CreateTask` returns an error and persists nothing
exactly when `run_at` is strictly before the current time or the prompt is
empty; otherwise (including `run_at` equal to now) a pending row is
persisted and a timer armed for it. -/
theorem delay_create_validation (st : Delay.State) (now : Int) (name : String)
    (runAt : Int) (prompt : String) (ch : Option String) :
    (runAt < now ∨ prompt = "" →
      (∃ e, (Delay.createTask st now name runAt prompt ch).1 = .error e)
        ∧ (Delay.createTask st now name runAt prompt ch).2 = st)
    ∧ (¬ runAt < now → prompt ≠ "" →
      ∃ task, (Delay.createTask st now name runAt prompt ch).1 = .ok task
        ∧ task.status = .pending ∧ task.runAt = runAt ∧ task.prompt = prompt
        ∧ (Delay.createTask st now name runAt prompt ch).2.rows = st.rows ++ [task]
        ∧ task.id ∈ (Delay.createTask st now name runAt prompt ch).2.timers) := by
  constructor
  · intro h
    unfold Delay.createTask
    by_cases h1 : runAt < now
    · simp only [h1, if_true, reduceIte]
      exact ⟨⟨_, rfl⟩, trivial⟩
    · have h2 : prompt = "" := by tauto
      simp only [h1, h2, if_true, if_false, reduceIte]
      exact ⟨⟨_, rfl⟩, trivial⟩
  · intro h1 h2
    unfold Delay.createTask
    simp only [h1, h2, if_true, if_false, reduceIte]
    unfold Delay.scheduleTask
    refine ⟨_, rfl, rfl, rfl, rfl, rfl, ?_⟩
    simp

/-- Witness for the amended C3 on a concrete valid creation. -/
theorem delay_create_validation_witness :
    ∃ task, (Delay.createTask ⟨[], 1, [], false⟩ 0 ("n") 7 ("p") none).1 = .ok task
      ∧ task.status = .pending ∧ task.runAt = 7 ∧ task.prompt = "p"
      ∧ (Delay.createTask ⟨[], 1, [], false⟩ 0 ("n") 7 ("p") none).2.rows
          = ([] : List DelayTask) ++ [task]
      ∧ task.id ∈ (Delay.createTask ⟨[], 1, [], false⟩ 0 ("n") 7 ("p") none).2.timers :=
  (delay_create_validation ⟨[], 1, [], false⟩ 0 ("n") 7 ("p") none).2
    (by decide) (by decide)

/-- C9: `scheduleTask` of the delay scheduler has no failure path, so once
validation passes, `CreateTask` always persists and returns the task: the
rollback branch after persistence is dead code. -/
theorem delay_schedule_never_fails :
    (∀ st task now, (Delay.scheduleTask st task now).1 = .ok ())
    ∧ (∀ st now name runAt prompt ch, ¬ runAt < now → prompt ≠ "" →
        ∃ task st', Delay.createTask st now name runAt prompt ch = (.ok task, st')) := by
  constructor
  · intro st task now
    rfl
  · intro st now name runAt prompt ch h1 h2
    unfold Delay.createTask
    simp only [h1, h2, if_true, if_false, reduceIte]
    unfold Delay.scheduleTask
    exact ⟨_, _, rfl⟩

/-- Witness for C9 at a concrete input. -/
theorem delay_schedule_never_fails_witness :
    ∃ task st', Delay.createTask ⟨[], 1, [], false⟩ 0 ("n") 7 ("p") none
      = (.ok task, st') :=
  delay_schedule_never_fails.2 ⟨[], 1, [], false⟩ 0 ("n") 7 ("p") none
    (by decide) (by decide)

/-- C10: `UpdateStatusByID` writes `result`/`error` only when the
arguments are non-empty (an empty argument leaves the stored value
unchanged) and sets `executed_at` exactly for `completed`/`failed`,
leaving it unchanged for every other status, including `missed` and
`cancelled`. -/
theorem update_status_frame_effects (rows : List DelayTask) (id : Nat)
    (r : DelayTask) (status : TaskStatus) (result errMsg : String) (now : Int)
    (h : Delay.findRow rows id = some r) :
    ∃ rows', Delay.updateStatusByID rows id status result errMsg now = .ok rows'
      ∧ Delay.findRow rows' id = some
          { r with
            status := status
            result := if result ≠ "" then result else r.result
            error := if errMsg ≠ "" then errMsg else r.error
            executedAt := if status = .completed ∨ status = .failed
              then some now else r.executedAt } := by
  refine ⟨_, Delay.updateStatusByID_ok rows id r status result errMsg now h, ?_⟩
  exact Delay.findRow_after_update rows id r status result errMsg now h

/-- Witness for C10: marking a row missed keeps `executed_at` and
`result` untouched. -/
theorem update_status_frame_effects_witness :
    ∃ rows', Delay.updateStatusByID [⟨1, "t", 3, "p", "", .pending, "", "", none⟩] 1
        .missed ("") ("boom") 9 = .ok rows'
      ∧ Delay.findRow rows' 1 = some ⟨1, "t", 3, "p", "", .missed, "", "boom", none⟩ :=
  update_status_frame_effects [⟨1, "t", 3, "p", "", .pending, "", "", none⟩] 1
    ⟨1, "t", 3, "p", "", .pending, "", "", none⟩ .missed ("") ("boom") 9 (by decide)

/-- C4: the delay scheduler's cancel succeeds exactly on a pending row
(making it cancelled, so a second cancel of the same id fails with the
typed "not pending" error); an existing non-pending row yields "not
pending", a missing id yields "not found". -/
theorem cancel_succeeds_iff_pending (st : Delay.State) (id : Nat)
    (hnd : (Delay.rowIds st.rows).Nodup) :
    (Delay.findRow st.rows id = none →
      (Delay.cancelTaskByID st id).1 = .error .notFound)
    ∧ (∀ row, Delay.findRow st.rows id = some row → row.status = .pending →
      (Delay.cancelTaskByID st id).1 = .ok ()
        ∧ (Delay.cancelTaskByID (Delay.cancelTaskByID st id).2 id).1
            = .error .notPending)
    ∧ (∀ row, Delay.findRow st.rows id = some row → row.status ≠ .pending →
      (Delay.cancelTaskByID st id).1 = .error .notPending) := by
  refine ⟨?_, ?_, ?_⟩
  · intro h
    unfold Delay.cancelTaskByID
    dsimp only
    rw [Delay.cancelByID_notFound st.rows id h]
  · intro row h hp
    have hok := Delay.cancelByID_ok st.rows id row h hp
    have hid := (Delay.findRow_mem st.rows id row h).2
    have hfr' : Delay.findRow (st.rows.map (fun r =>
        if r.id = id ∧ r.status = .pending then { r with status := TaskStatus.cancelled }
        else r)) id = some { row with status := TaskStatus.cancelled } := by
      rw [Delay.findRow_map_of_id_preserved st.rows id _ (Delay.cancelMap_id id), h]
      simp [hid, hp]
    have hnd' : (Delay.rowIds (st.rows.map (fun r =>
        if r.id = id ∧ r.status = .pending then { r with status := TaskStatus.cancelled }
        else r))).Nodup := by
      rw [Delay.rowIds_map st.rows _ (Delay.cancelMap_id id)]
      exact hnd
    constructor
    · unfold Delay.cancelTaskByID
      dsimp only
      rw [hok]
    · unfold Delay.cancelTaskByID
      dsimp only
      rw [hok]
      have hnp := Delay.cancelByID_notPending _ id
        { row with status := TaskStatus.cancelled } hnd' hfr' (by simp)
      simp only
      rw [hnp]
  · intro row h hp
    unfold Delay.cancelTaskByID
    dsimp only
    rw [Delay.cancelByID_notPending st.rows id row hnd h hp]

/-- Witness for C4: cancel of a concrete pending row succeeds and a second
cancel fails with "not pending". -/
theorem cancel_succeeds_iff_pending_witness :
    (Delay.cancelTaskByID ⟨[⟨1, "t", 5, "p", "", .pending, "", "", none⟩], 2, [1], false⟩ 1).1
        = .ok ()
      ∧ (Delay.cancelTaskByID
          (Delay.cancelTaskByID
            ⟨[⟨1, "t", 5, "p", "", .pending, "", "", none⟩], 2, [1], false⟩ 1).2 1).1
          = .error .notPending :=
  (cancel_succeeds_iff_pending
      ⟨[⟨1, "t", 5, "p", "", .pending, "", "", none⟩], 2, [1], false⟩ 1 (by decide)).2.1
    ⟨1, "t", 5, "p", "", .pending, "", "", none⟩ (by decide) (by decide)

/-- C6: in both schedulers, whenever `CreateTask` returns an error the
persisted table is exactly what it was before the call — in particular the
just-created row has been rolled back, so no persisted row exists without
a live registry entry. -/
theorem create_rollback_no_orphan_row :
    (∀ st now name runAt prompt ch e st',
      Delay.createTask st now name runAt prompt ch = (.error e, st') →
        st'.rows = st.rows)
    ∧ (∀ st now name expr prompt desc ch e st',
      (∀ t ∈ st.tasks, t.id ≠ st.nextTaskId) →
      Cron.createTask st now name expr prompt desc ch = (.error e, st') →
        st'.tasks = st.tasks) := by
  constructor
  · intro st now name runAt prompt ch e st' h
    unfold Delay.createTask at h
    by_cases h1 : runAt < now
    · simp only [h1, if_true, reduceIte] at h
      rw [← (Prod.mk.injEq _ _ _ _).mp h |>.2]
    · simp only [h1, if_false, reduceIte] at h
      by_cases h2 : prompt = ""
      · simp only [h2, if_true, eq_self_iff_true, reduceIte] at h
        rw [← (Prod.mk.injEq _ _ _ _).mp h |>.2]
      · simp only [h2, if_false, reduceIte] at h
        unfold Delay.scheduleTask at h
        have := (Prod.mk.injEq _ _ _ _).mp h |>.1
        cases this
  · intro st now name expr prompt desc ch e st' hfresh h
    unfold Cron.createTask at h
    cases hp : parseCron expr with
    | error pe =>
      rw [hp] at h
      have := (Prod.mk.injEq _ _ _ _).mp h |>.2
      rw [← this]
    | ok sched =>
      rw [hp] at h
      by_cases h2 : prompt = ""
      · simp only [h2, if_true, eq_self_iff_true, reduceIte] at h
        have := (Prod.mk.injEq _ _ _ _).mp h |>.2
        rw [← this]
      · simp only [h2, if_false, reduceIte] at h
        unfold Cron.scheduleTask at h
        rw [Cron.engineAddOk_of_parse expr sched hp] at h
        have := (Prod.mk.injEq _ _ _ _).mp h |>.1
        cases this

/-- Witness for C6 on concrete rejected creations (empty prompt) in both
schedulers. -/
theorem create_rollback_no_orphan_row_witness :
    ((⟨[], 1, [], false⟩ : Delay.State)).rows = (⟨[], 1, [], false⟩ : Delay.State).rows
      ∧ ((⟨[], [], 1, 1, [], false⟩ : Cron.State)).tasks
          = (⟨[], [], 1, 1, [], false⟩ : Cron.State).tasks :=
  ⟨create_rollback_no_orphan_row.1 ⟨[], 1, [], false⟩ 0 ("n") 7 ("")
      none ("prompt cannot be empty") ⟨[], 1, [], false⟩ rfl,
    create_rollback_no_orphan_row.2 ⟨[], [], 1, 1, [], false⟩ ⟨2024, 1, 1, 0, 0, 0⟩
      ("n") ("* * * * * *") ("") ("") none ("prompt cannot be empty")
      ⟨[], [], 1, 1, [], false⟩ (by simp) rfl⟩

/-- C7 (counterexample to the claim as stated): with no executor
configured, `executeTask` marks the row failed and returns early *without*
removing the timer handle; the registry still holds the id afterwards.
The same early return happens on the non-pending abort path. -/
theorem execute_keeps_timer_counterexample :
    (1 : Nat) ∈ (Delay.executeTask
        ⟨[⟨1, "t", 5, "p", "", .pending, "", "", none⟩], 2, [1], false⟩ 1 9 none).timers
      ∧ Delay.findRow (Delay.executeTask
          ⟨[⟨1, "t", 5, "p", "", .pending, "", "", none⟩], 2, [1], false⟩ 1 9 none).rows 1
          = some ⟨1, "t", 5, "p", "", .failed, "", "agent executor not set", some 9⟩ := by
  decide

/-- C7 (amended): `executeTask` removes the timer handle exactly when it
reaches the executor call (row pending and an executor configured),
regardless of the executor's outcome; on every early abort — missing row,
non-pending row, executor not configured — the registry is left
unchanged. -/
theorem execute_timer_removal (st : Delay.State) (id : Nat) (now : Int)
    (exec : Option (String → Except String String)) (hrun : st.stopped = false) :
    (Delay.findRow st.rows id = none →
      (Delay.executeTask st id now exec).timers = st.timers)
    ∧ (∀ task, Delay.findRow st.rows id = some task → task.status ≠ .pending →
      (Delay.executeTask st id now exec).timers = st.timers)
    ∧ (∀ task, Delay.findRow st.rows id = some task → task.status = .pending →
      exec = none →
      (Delay.executeTask st id now exec).timers = st.timers)
    ∧ (∀ task f, Delay.findRow st.rows id = some task → task.status = .pending →
      exec = some f →
      (Delay.executeTask st id now exec).timers
        = st.timers.filter (fun i => decide (i ≠ id))) := by
  refine ⟨?_, ?_, ?_, ?_⟩
  · intro h
    unfold Delay.executeTask
    simp only [hrun, Bool.false_eq_true, if_false, reduceIte]
    rw [h]
  · intro task h hnp
    unfold Delay.executeTask
    simp only [hrun, Bool.false_eq_true, if_false, reduceIte]
    rw [h]
    dsimp only
    rw [if_pos hnp]
  · intro task h hp hnone
    subst hnone
    unfold Delay.executeTask
    simp only [hrun, Bool.false_eq_true, if_false, reduceIte]
    rw [h]
    dsimp only
    simp only [hp, if_false, ne_eq, not_true_eq_false, reduceIte]
    rw [Delay.updateStatusByID_ok st.rows id task .running ("") ("") now h]
    cases hu : Delay.updateStatusByID
        (Delay.updById id (fun x => Delay.applyStatusUpdate x .running ("") ("") now) st.rows)
        id .failed ("") ("agent executor not set") now with
    | ok rows2 => simp [hu]
    | error er => simp [hu]
  · intro task f h hp hsome
    subst hsome
    unfold Delay.executeTask
    simp only [hrun, Bool.false_eq_true, if_false, reduceIte]
    rw [h]
    dsimp only
    simp only [hp, if_false, ne_eq, not_true_eq_false, reduceIte]
    rw [Delay.updateStatusByID_ok st.rows id task .running ("") ("") now h]
    cases hx : f task.prompt with
    | error er =>
      simp only [hx]
      cases hu : Delay.updateStatusByID
          (Delay.updById id (fun x => Delay.applyStatusUpdate x .running ("") ("") now) st.rows)
          id .failed ("") er now with
      | ok rows2 => simp [hu]
      | error e2 => simp [hu]
    | ok res =>
      simp only [hx]
      cases hu : Delay.updateStatusByID
          (Delay.updById id (fun x => Delay.applyStatusUpdate x .running ("") ("") now) st.rows)
          id .completed res ("") now with
      | ok rows2 => simp [hu]
      | error e2 => simp [hu]

/-- Witness for the amended C7: a fired task with a configured executor
loses its registry entry. -/
theorem execute_timer_removal_witness :
    (Delay.executeTask ⟨[⟨1, "t", 5, "p", "", .pending, "", "", none⟩], 2, [1, 4], false⟩
        1 9 (some (fun _ => .ok ("pong")))).timers
      = [1, 4].filter (fun i => decide (i ≠ 1)) :=
  (execute_timer_removal ⟨[⟨1, "t", 5, "p", "", .pending, "", "", none⟩], 2, [1, 4], false⟩
      1 9 (some (fun _ => .ok ("pong"))) rfl).2.2.2
    ⟨1, "t", 5, "p", "", .pending, "", "", none⟩ (fun _ => .ok ("pong"))
    (by decide) (by decide) rfl

namespace Delay

theorem createTask_rows_shape (st : State) (now : Int) (name : String)
    (runAt : Int) (prompt : String) (ch : Option String) :
    (createTask st now name runAt prompt ch).2.rows = st.rows
      ∨ ∃ task, (createTask st now name runAt prompt ch).2.rows = st.rows ++ [task]
          ∧ task.result = "" ∧ task.error = "" ∧ task.status = .pending := by
  unfold createTask
  by_cases h1 : runAt < now
  · simp [h1]
  · by_cases h2 : prompt = ""
    · simp [h1, h2]
    · simp only [h1, h2, if_false, if_true, reduceIte]
      unfold scheduleTask
      right
      exact ⟨_, rfl, rfl, rfl, rfl⟩

theorem cancelByID_ok_shape (rows rows' : List DelayTask) (id : Nat)
    (h : cancelByID rows id = .ok rows') :
    rows' = rows.map (fun r =>
      if r.id = id ∧ r.status = .pending then { r with status := TaskStatus.cancelled }
      else r) := by
  unfold cancelByID at h
  dsimp only at h
  by_cases hz : rows.countP (fun r => decide (r.id = id ∧ r.status = .pending)) = 0
  · rw [if_pos hz] at h
    by_cases hz2 : rows.countP (fun r => decide (r.id = id)) = 0
    · rw [if_pos hz2] at h
      cases h
    · rw [if_neg hz2] at h
      cases h
  · rw [if_neg hz] at h
    injection h with h2
    exact h2.symm

/-- `executeTask` preserves the result/error population discipline. -/
theorem executeTask_allOK (st : State) (id : Nat) (now : Int)
    (exec : Option (String → Except String String))
    (hnd : (rowIds st.rows).Nodup) (hall : ∀ r ∈ st.rows, resultErrorOK r) :
    ∀ r ∈ (executeTask st id now exec).rows, resultErrorOK r := by
  unfold executeTask
  by_cases hstop : st.stopped = true
  · simp only [hstop, if_true, reduceIte]
    exact hall
  · have hstop' : st.stopped = false := by
      cases hs : st.stopped
      · rfl
      · exact absurd hs hstop
    simp only [hstop', Bool.false_eq_true, if_false, reduceIte]
    cases hfr : findRow st.rows id with
    | none => exact hall
    | some task =>
      dsimp only
      by_cases hpend : task.status ≠ .pending
      · rw [if_pos hpend]
        exact hall
      · rw [if_neg hpend]
        have hp : task.status = .pending := by
          by_contra hc
          exact hpend hc
        have hemp := pending_fields_empty task
          (hall task (findRow_mem st.rows id task hfr).1) hp
        rw [updateStatusByID_ok st.rows id task .running ("") ("") now hfr]
        dsimp only
        -- facts about the running row
        have hall1 : ∀ r ∈ updById id
            (fun x => applyStatusUpdate x .running ("") ("") now) st.rows, resultErrorOK r := by
          apply allOK_updOneRow st.rows id task hnd hfr hall
          · intro hc; exact absurd rfl hc
          · intro hc; exact absurd rfl hc
          · intro hc; exact absurd hemp.1 hc
          · intro hc; exact absurd hemp.2 hc
        have hnd1 : (rowIds (updById id
            (fun x => applyStatusUpdate x .running ("") ("") now) st.rows)).Nodup := by
          rw [rowIds_updById st.rows id _
            (fun x => applyStatusUpdate_id x .running ("") ("") now)]
          exact hnd
        have hfr1 : findRow (updById id
            (fun x => applyStatusUpdate x .running ("") ("") now) st.rows) id
            = some (applyStatusUpdate task .running ("") ("") now) :=
          findRow_after_update st.rows id task .running ("") ("") now hfr
        have hrun_res : (applyStatusUpdate task .running ("") ("") now).result = "" := by
          unfold applyStatusUpdate
          simp [hemp.1]
        have hrun_err : (applyStatusUpdate task .running ("") ("") now).error = "" := by
          unfold applyStatusUpdate
          simp [hemp.2]
        cases exec with
        | none =>
          rw [updateStatusByID_ok _ id (applyStatusUpdate task .running ("") ("") now)
            .failed ("") ("agent executor not set") now hfr1]
          dsimp only
          apply allOK_updOneRow _ id (applyStatusUpdate task .running ("") ("") now)
            hnd1 hfr1 hall1
          · intro hc; exact absurd rfl hc
          · intro _; exact Or.inl rfl
          · intro hc; exact absurd hrun_res hc
          · intro hc; exact absurd hrun_err hc
        | some f =>
          dsimp only
          cases hx : f task.prompt with
          | error msg =>
            dsimp only
            rw [updateStatusByID_ok _ id (applyStatusUpdate task .running ("") ("") now)
              .failed ("") msg now hfr1]
            dsimp only
            apply allOK_updOneRow _ id (applyStatusUpdate task .running ("") ("") now)
              hnd1 hfr1 hall1
            · intro hc; exact absurd rfl hc
            · intro _; exact Or.inl rfl
            · intro hc; exact absurd hrun_res hc
            · intro hc; exact absurd hrun_err hc
          | ok res =>
            dsimp only
            rw [updateStatusByID_ok _ id (applyStatusUpdate task .running ("") ("") now)
              .completed res ("") now hfr1]
            dsimp only
            apply allOK_updOneRow _ id (applyStatusUpdate task .running ("") ("") now)
              hnd1 hfr1 hall1
            · intro _; rfl
            · intro hc; exact absurd rfl hc
            · intro hc; exact absurd hrun_res hc
            · intro hc; exact absurd hrun_err hc

end Delay

/-- C8 (counterexample to the claim as stated): marking an overdue pending
row missed during recovery writes a fixed non-empty string to its `error`
column, yet the row's final status is `missed`. -/
theorem missed_error_field_counterexample :
    Delay.findRow (Delay.recoverTasks
        ⟨[⟨1, "t", 5, "p", "", .pending, "", "", none⟩], 2, [], false⟩ 9).rows 1
        = some ⟨1, "t", 5, "p", "", .missed, "",
            "task missed due to server restart", none⟩
      ∧ ("task missed due to server restart" : String) ≠ "" := by
  exact ⟨by decide, by decide⟩

/-- C8 (amended): across every delay controller operation, a non-empty
`result` is only ever stored on a row whose status is `completed`, and a
non-empty `error` only on a row whose status is `failed` or `missed` (the
missed case carrying the fixed restart-loss message); rows that end up
pending, running, or cancelled never receive a non-empty `result` or
`error`. -/
theorem result_error_population (st : Delay.State)
    (hnd : (Delay.rowIds st.rows).Nodup)
    (hall : ∀ r ∈ st.rows, Delay.resultErrorOK r) :
    (∀ now name runAt prompt ch r,
      r ∈ (Delay.createTask st now name runAt prompt ch).2.rows →
        Delay.resultErrorOK r)
    ∧ (∀ id r, r ∈ (Delay.cancelTaskByID st id).2.rows → Delay.resultErrorOK r)
    ∧ (∀ id now exec r, r ∈ (Delay.executeTask st id now exec).rows →
        Delay.resultErrorOK r)
    ∧ (∀ now r, r ∈ (Delay.recoverTasks st now).rows → Delay.resultErrorOK r) := by
  refine ⟨?_, ?_, ?_, ?_⟩
  · intro now name runAt prompt ch r hr
    rcases Delay.createTask_rows_shape st now name runAt prompt ch with hsh | ⟨task, hsh, h1, h2, _⟩
    · rw [hsh] at hr
      exact hall r hr
    · rw [hsh] at hr
      rcases List.mem_append.mp hr with hr | hr
      · exact hall r hr
      · have : r = task := by simpa using hr
        subst this
        exact ⟨fun hc => absurd h1 hc, fun hc => absurd h2 hc⟩
  · intro id r hr
    unfold Delay.cancelTaskByID at hr
    dsimp only at hr
    cases hc : Delay.cancelByID st.rows id with
    | error e =>
      rw [hc] at hr
      exact hall r hr
    | ok rows' =>
      rw [hc] at hr
      dsimp only at hr
      rw [Delay.cancelByID_ok_shape st.rows rows' id hc] at hr
      rcases List.mem_map.mp hr with ⟨r0, hr0, hmap⟩
      by_cases hcond : r0.id = id ∧ r0.status = .pending
      · rw [if_pos hcond] at hmap
        have hemp := Delay.pending_fields_empty r0 (hall r0 hr0) hcond.2
        rw [← hmap]
        exact ⟨fun hc2 => absurd hemp.1 (by simpa using hc2),
          fun hc2 => absurd hemp.2 (by simpa using hc2)⟩
      · rw [if_neg hcond] at hmap
        rw [← hmap]
        exact hall r0 hr0
  · intro id now exec r hr
    exact Delay.executeTask_allOK st id now exec hnd hall r hr
  · intro now r hr
    rcases Delay.recoverTasks_mem_shape st now hnd r hr with ⟨r0, hr0, hcase⟩
    rcases hcase with hcase | ⟨hp, hcase⟩
    · rw [hcase]
      exact hall r0 hr0
    · have hemp := Delay.pending_fields_empty r0 (hall r0 hr0) hp
      rw [hcase, Delay.markMissed_eq]
      refine ⟨fun hc2 => ?_, fun _ => Or.inr rfl⟩
      exact absurd hemp.1 (by simpa using hc2)

/-- Witness for the amended C8: the missed row produced by recovery obeys
the amended population discipline. -/
theorem result_error_population_witness :
    Delay.resultErrorOK ⟨1, "t", 5, "p", "", .missed, "", Delay.missedMsg, none⟩ :=
  (result_error_population
      ⟨[⟨1, "t", 5, "p", "", .pending, "", "", none⟩], 2, [], false⟩
      (by decide) (by decide)).2.2.2 9
    ⟨1, "t", 5, "p", "", .missed, "", Delay.missedMsg, none⟩ (by decide)

/-- C2: every fire of a cron task (scheduler running, task row present,
executor configured) appends exactly one new `cron_executions` row, and by
the time `executeTask` returns that row is finalized: `finished_at` set,
status `completed` or `failed` according to the executor's outcome —
never left `running` — with `result`/`error` filled accordingly and
`duration` equal to `finished_at − started_at` in milliseconds. -/
theorem cron_execute_finalizes_execution_row (st : Cron.State) (taskID : Nat)
    (scheduledAt startedAt finishedAt : DateTime)
    (f : String → Except String String) (task : CronTask)
    (hrun : st.stopped = false) (htask : Cron.findTask st.tasks taskID = some task)
    (hid : st.nextExecId ≠ 0) (hfresh : ∀ e ∈ st.execs, e.id ≠ st.nextExecId) :
    ∃ e, (Cron.executeTask st taskID scheduledAt startedAt finishedAt (some f)).execs
        = st.execs ++ [e]
      ∧ e.cronTaskID = taskID ∧ e.scheduledAt = scheduledAt ∧ e.startedAt = startedAt
      ∧ e.finishedAt = some finishedAt
      ∧ e.status = (match f task.prompt with
          | .ok _ => CronExecStatus.completed
          | .error _ => CronExecStatus.failed)
      ∧ e.status ≠ .running
      ∧ e.result = (match f task.prompt with | .ok res => res | .error _ => "")
      ∧ e.error = (match f task.prompt with | .ok _ => "" | .error msg => msg)
      ∧ e.duration = (dtToSecs finishedAt - dtToSecs startedAt) * 1000 := by
  unfold Cron.executeTask
  simp only [hrun, Bool.false_eq_true, if_false, reduceIte]
  rw [htask]
  dsimp only
  have hfin := Cron.finishExecution_append
    ⟨st.tasks,
      st.execs ++ [⟨st.nextExecId, taskID, scheduledAt, startedAt, none, .running,
        "", "", 0⟩],
      st.nextTaskId, st.nextExecId + 1, st.entries, false⟩
    st.execs
    ⟨st.nextExecId, taskID, scheduledAt, startedAt, none, .running, "", "", 0⟩
    rfl hfresh hid finishedAt
  cases hx : f task.prompt with
  | error msg =>
    dsimp only
    rw [if_neg (fun hc => hc.2 rfl)]
    refine ⟨_, hfin .failed ("") msg, rfl, rfl, rfl, rfl, rfl, by dsimp only; decide, rfl, rfl, rfl⟩
  | ok res =>
    dsimp only
    rw [if_neg (fun hc => hc.2 rfl)]
    refine ⟨_, hfin .completed res (""), rfl, rfl, rfl, rfl, rfl, by dsimp only; decide, rfl, rfl, rfl⟩

/-- Witness for C2 on a concrete fire with a succeeding executor. -/
theorem cron_execute_finalizes_execution_row_witness :
    ∃ e, (Cron.executeTask ⟨[⟨1, "t", "* * * * * *", "p", "", "", none⟩], [], 2, 1, [1], false⟩
        1 ⟨2024, 1, 1, 0, 0, 0⟩ ⟨2024, 1, 1, 0, 0, 0⟩ ⟨2024, 1, 1, 0, 0, 2⟩
        (some (fun _ => .ok ("pong")))).execs = [] ++ [e]
      ∧ e.cronTaskID = 1 ∧ e.scheduledAt = ⟨2024, 1, 1, 0, 0, 0⟩
      ∧ e.startedAt = ⟨2024, 1, 1, 0, 0, 0⟩
      ∧ e.finishedAt = some ⟨2024, 1, 1, 0, 0, 2⟩
      ∧ e.status = (match (fun (_ : String) => Except.ok (ε := String) ("pong")) "p" with
          | .ok _ => CronExecStatus.completed
          | .error _ => CronExecStatus.failed)
      ∧ e.status ≠ .running
      ∧ e.result = (match (fun (_ : String) => Except.ok (ε := String) ("pong")) "p" with
          | .ok res => res | .error _ => "")
      ∧ e.error = (match (fun (_ : String) => Except.ok (ε := String) ("pong")) "p" with
          | .ok _ => "" | .error msg => msg)
      ∧ e.duration = (dtToSecs ⟨2024, 1, 1, 0, 0, 2⟩ - dtToSecs ⟨2024, 1, 1, 0, 0, 0⟩) * 1000 :=
  cron_execute_finalizes_execution_row
    ⟨[⟨1, "t", "* * * * * *", "p", "", "", none⟩], [], 2, 1, [1], false⟩ 1
    ⟨2024, 1, 1, 0, 0, 0⟩ ⟨2024, 1, 1, 0, 0, 0⟩ ⟨2024, 1, 1, 0, 0, 2⟩
    (fun _ => .ok ("pong")) ⟨1, "t", "* * * * * *", "p", "", "", none⟩
    rfl (by decide) (by decide) (by simp)

/-- C5 (counterexample to the claim as stated): `"0 0 0 30 2 *"` (February
30th) parses under the six-field grammar, so `CreateTask` succeeds and
persists the row — but `schedule.Next` finds no matching instant within
its five-year search horizon and returns the zero time, so the persisted
`next_run_at`, while non-nil, is the zero time and *not* strictly after
the creation time. -/
theorem cron_feb30_counterexample :
    (Cron.createTask ⟨[], [], 1, 1, [], false⟩ ⟨2024, 1, 1, 0, 0, 0⟩
        ("t") ("0 0 0 30 2 *") ("p") ("") none).1
        = .ok ⟨1, "t", "0 0 0 30 2 *", "p", "", "", some zeroTime⟩
      ∧ (Cron.createTask ⟨[], [], 1, 1, [], false⟩ ⟨2024, 1, 1, 0, 0, 0⟩
          ("t") ("0 0 0 30 2 *") ("p") ("") none).2.tasks
          = [⟨1, "t", "0 0 0 30 2 *", "p", "", "", some zeroTime⟩]
      ∧ ¬ dtKey ⟨2024, 1, 1, 0, 0, 0⟩ < dtKey zeroTime := by
  exact ⟨rfl, rfl, by decide⟩

/-- C5 (amended): `CreateTask` fails closed — persisting nothing — on an
expression rejected by the six-field grammar or on an empty prompt; on
success it persists the row with a non-nil `next_run_at` that is strictly
after the creation time whenever the schedule has a matching instant
within the engine's five-year search horizon, and is the zero time
otherwise. -/
theorem cron_create_validation_and_next_run (st : Cron.State) (now : DateTime)
    (name expr prompt desc : String) (ch : Option String) (hwf : DTWF now) :
    (∀ e, parseCron expr = .error e →
      (∃ e', (Cron.createTask st now name expr prompt desc ch).1 = .error e')
        ∧ (Cron.createTask st now name expr prompt desc ch).2 = st)
    ∧ (∀ sched, parseCron expr = .ok sched → prompt = "" →
      (∃ e', (Cron.createTask st now name expr prompt desc ch).1 = .error e')
        ∧ (Cron.createTask st now name expr prompt desc ch).2 = st)
    ∧ (∀ sched, parseCron expr = .ok sched → prompt ≠ "" →
      ∃ task, (Cron.createTask st now name expr prompt desc ch).1 = .ok task
        ∧ (Cron.createTask st now name expr prompt desc ch).2.tasks
            = st.tasks ++ [task]
        ∧ task.nextRunAt = some ((schedNext sched now).getD zeroTime)
        ∧ ∀ nr, schedNext sched now = some nr → dtKey now < dtKey nr) := by
  refine ⟨?_, ?_, ?_⟩
  · intro e hp
    unfold Cron.createTask
    rw [hp]
    exact ⟨⟨_, rfl⟩, rfl⟩
  · intro sched hp hpr
    unfold Cron.createTask
    rw [hp]
    simp only [hpr, if_true, eq_self_iff_true, reduceIte]
    exact ⟨⟨_, rfl⟩, trivial⟩
  · intro sched hp hpr
    unfold Cron.createTask
    rw [hp]
    simp only [hpr, if_false, reduceIte]
    unfold Cron.scheduleTask
    dsimp only
    rw [Cron.engineAddOk_of_parse expr sched hp]
    dsimp only
    rw [if_neg (fun hc => hc rfl)]
    refine ⟨_, rfl, rfl, rfl, ?_⟩
    intro nr hnr
    exact (schedNext_spec sched now nr hwf hnr).2

/-- Witness for the amended C5 on a concrete every-second schedule. -/
theorem cron_create_validation_and_next_run_witness :
    ∃ task, (Cron.createTask ⟨[], [], 1, 1, [], false⟩ ⟨2024, 1, 1, 0, 0, 0⟩
        ("t") ("* * * * * *") ("p") ("") none).1 = .ok task
      ∧ (Cron.createTask ⟨[], [], 1, 1, [], false⟩ ⟨2024, 1, 1, 0, 0, 0⟩
          ("t") ("* * * * * *") ("p") ("") none).2.tasks = [] ++ [task]
      ∧ task.nextRunAt = some ((schedNext
          ⟨10376293541461622783, 10376293541461622783, 9223372036871553023,
            9223372041149743102, 9223372036854783998, 9223372036854775935⟩
          ⟨2024, 1, 1, 0, 0, 0⟩).getD zeroTime)
      ∧ ∀ nr, schedNext
          ⟨10376293541461622783, 10376293541461622783, 9223372036871553023,
            9223372041149743102, 9223372036854783998, 9223372036854775935⟩
          ⟨2024, 1, 1, 0, 0, 0⟩ = some nr →
          dtKey ⟨2024, 1, 1, 0, 0, 0⟩ < dtKey nr :=
  (cron_create_validation_and_next_run ⟨[], [], 1, 1, [], false⟩ ⟨2024, 1, 1, 0, 0, 0⟩
      ("t") ("* * * * * *") ("p") ("") none (by decide)).2.2
    ⟨10376293541461622783, 10376293541461622783, 9223372036871553023,
      9223372041149743102, 9223372036854783998, 9223372036854775935⟩
    rfl (by decide)

end AgentChassis
